import Mathlib

/-!
GAMES101 assignments 3 and 7: transform matrices, fragment shaders, materials.

A shallow embedding of `Assignment3/main.cpp` and `Assignment7/Material.hpp`.

Conventions of the embedding.

* `float` is read as an ordered field `F` (ideal arithmetic, no rounding). Definitions are
  generic in `F`, so they evaluate on rationals; theorems that need `sqrt`, `sin`, `cos`
  or `tan` are stated over the reals.
* The C library functions `std::sqrt`, `std::sin`, `std::cos`, `std::tan` and the constants
  `M_PI` (from `<cmath>`) and `MY_PI` of `global.hpp` are arguments of the definitions that
  use them.
* A division whose divisor is computed at run time is a checked division `fdiv`: it yields
  `none` when the divisor is zero (where the machine would produce an infinity or a NaN), and
  the failure propagates. Divisions by the non-zero constants `2`, `180`, `M_PI`, `MY_PI`
  are ordinary field divisions.
-/

namespace Games101

/-! ## Vectors -/

/-- Three-component vector (`Eigen::Vector3f` in assignment 3, `Vector3f` in assignment 7). -/
structure Vec3 (F : Type) where
  x : F
  y : F
  z : F
deriving DecidableEq, Repr

/-- Checked division: `none` when the divisor is zero. -/
def fdiv {F : Type} [Field F] [DecidableEq F] (a b : F) : Option F :=
  if b = 0 then none else some (a / b)

namespace Vec3

variable {F : Type}

/-- Componentwise sum, `a + b`. -/
def add [Add F] (a b : Vec3 F) : Vec3 F := ⟨a.x + b.x, a.y + b.y, a.z + b.z⟩

/-- Componentwise difference, `a - b`. -/
def sub [Sub F] (a b : Vec3 F) : Vec3 F := ⟨a.x - b.x, a.y - b.y, a.z - b.z⟩

/-- Componentwise negation, `-a`. -/
def neg [Neg F] (a : Vec3 F) : Vec3 F := ⟨-a.x, -a.y, -a.z⟩

/-- Scaling by a scalar, `r * a` or `a * r`. -/
def smul [Mul F] (r : F) (a : Vec3 F) : Vec3 F := ⟨r * a.x, r * a.y, r * a.z⟩

/-- Componentwise product (`cwiseProduct` in Eigen, `operator*` of two `Vector3f`). -/
def cwiseProduct [Mul F] (a b : Vec3 F) : Vec3 F := ⟨a.x * b.x, a.y * b.y, a.z * b.z⟩

/-- Division of every component by a constant that is known to be non-zero. -/
def divConst [Div F] (a : Vec3 F) (r : F) : Vec3 F := ⟨a.x / r, a.y / r, a.z / r⟩

/-- Dot product. -/
def dot [Add F] [Mul F] (a b : Vec3 F) : F := a.x * b.x + a.y * b.y + a.z * b.z

/-- Cross product. -/
def cross [Sub F] [Mul F] (a b : Vec3 F) : Vec3 F :=
  ⟨a.y * b.z - a.z * b.y, a.z * b.x - a.x * b.z, a.x * b.y - a.y * b.x⟩

/-- Euclidean length, with the square root function as an argument. -/
def norm [Add F] [Mul F] (sqrt : F → F) (a : Vec3 F) : F := sqrt (dot a a)

/-- Division of every component by a run-time scalar; fails when the scalar is zero. -/
def divScalar [Field F] [DecidableEq F] (a : Vec3 F) (r : F) : Option (Vec3 F) :=
  if r = 0 then none else some ⟨a.x / r, a.y / r, a.z / r⟩

/-- Scaling by a scalar written on the right, `a * r`. -/
def mulScalar [Mul F] (a : Vec3 F) (r : F) : Vec3 F := ⟨a.x * r, a.y * r, a.z * r⟩

/-- Eigen's `normalized()` (`Eigen/src/Core/Dot.h`): with `z = squaredNorm()`, the result is
`n / sqrt(z)` when `z > 0` and the vector itself otherwise. -/
def normalized [LinearOrderedField F] (sqrt : F → F) (a : Vec3 F) : Option (Vec3 F) :=
  let z := dot a a
  if 0 < z then divScalar a (sqrt z) else some a

/-- Modelled from the spec: `normalized()` and `normalize` of the missing `Vector.hpp` of
assignment 7. The vector is divided by its length; normalising a zero-length vector is
undefined. -/
def normalizedV [Field F] [DecidableEq F] (sqrt : F → F) (a : Vec3 F) : Option (Vec3 F) :=
  divScalar a (norm sqrt a)

end Vec3

/-- Four-component column vector (`Eigen::Vector4f`). -/
abbrev Vec4 (F : Type) := Fin 4 → F

/-- Four by four matrix (`Eigen::Matrix4f`). -/
abbrev Mat4 (F : Type) := Matrix (Fin 4) (Fin 4) F

/-! ## Assignment 3: transform matrices -/

/-- View matrix: `get_view_matrix` of `main.cpp`. -/
def get_view_matrix {F : Type} [CommRing F] (eye_pos : Vec3 F) : Mat4 F :=
  let view : Mat4 F := 1
  let translate : Mat4 F :=
    !![1, 0, 0, -eye_pos.x;
       0, 1, 0, -eye_pos.y;
       0, 0, 1, -eye_pos.z;
       0, 0, 0, 1]
  translate * view

/-- Model matrix: `get_model_matrix` of `main.cpp`. The argument `MY_PI` is the macro of the
missing `global.hpp`; `cos` and `sin` are the C library functions. -/
def get_model_matrix {F : Type} [Field F] (cos sin : F → F) (MY_PI : F) (angle : F) : Mat4 F :=
  let angle := angle * MY_PI / 180
  let rotation : Mat4 F :=
    !![cos angle, 0, sin angle, 0;
       0, 1, 0, 0;
       -sin angle, 0, cos angle, 0;
       0, 0, 0, 1]
  let scale : Mat4 F :=
    !![2.5, 0, 0, 0;
       0, 2.5, 0, 0;
       0, 0, 2.5, 0;
       0, 0, 0, 1]
  let translate : Mat4 F :=
    !![1, 0, 0, 0;
       0, 1, 0, 0;
       0, 0, 1, 0;
       0, 0, 0, 1]
  translate * rotation * scale

/-- Projection matrix: `get_projection_matrix` of `main.cpp`. The three entries of `Mrotate`
divide by run-time values, so the result is `none` when one of those divisors is zero. -/
def get_projection_matrix {F : Type} [LinearOrderedField F] (tan : F → F) (MY_PI : F)
    (fov aspect near far : F) : Option (Mat4 F) :=
  let near := -near
  let far := -far
  let top := tan (fov * 0.5 * MY_PI / 180) * |near|
  let right := aspect * top
  let bottom := -top
  let left := -right
  let Mp2o : Mat4 F :=
    !![near, 0, 0, 0;
       0, near, 0, 0;
       0, 0, near + far, -near * far;
       0, 0, 1, 0]
  let Mtrans : Mat4 F :=
    !![1, 0, 0, (right + left) * -0.5;
       0, 1, 0, (top + bottom) * -0.5;
       0, 0, 1, (near + far) * -0.5;
       0, 0, 0, 1]
  do
    let sx ← fdiv 2 (right - left)
    let sy ← fdiv 2 (top - bottom)
    let sz ← fdiv 2 (near - far)
    let Mrotate : Mat4 F :=
      !![sx, 0, 0, 0;
         0, sy, 0, 0;
         0, 0, sz, 0;
         0, 0, 0, 1]
    let Morthographic := Mrotate * Mtrans
    let Mprojection := Morthographic * Mp2o
    pure Mprojection

/-- Homogeneous division of a clip-space vector by its `w` component, as the rasterizer does
after applying the projection; undefined when `w` is zero. -/
def perspectiveDivide {F : Type} [Field F] [DecidableEq F] (v : Vec4 F) : Option (Vec3 F) :=
  if v 3 = 0 then none else some ⟨v 0 / v 3, v 1 / v 3, v 2 / v 3⟩

/-- The canonical cube: every coordinate lies between -1 and 1. -/
def inCanonicalCube {F : Type} [LinearOrderedField F] (c : Vec3 F) : Prop :=
  (-1 ≤ c.x ∧ c.x ≤ 1) ∧ (-1 ≤ c.y ∧ c.y ≤ 1) ∧ (-1 ≤ c.z ∧ c.z ≤ 1)

/-! ## Assignment 3: fragment shaders -/

/-- Three by three matrix (`Eigen::Matrix3f`). -/
abbrev Mat3 (F : Type) := Matrix (Fin 3) (Fin 3) F

/-- Product of a three by three matrix with a column vector. -/
def Mat3.mulVec3 {F : Type} [Add F] [Mul F] (M : Mat3 F) (v : Vec3 F) : Vec3 F :=
  ⟨M 0 0 * v.x + M 0 1 * v.y + M 0 2 * v.z,
   M 1 0 * v.x + M 1 1 * v.y + M 1 2 * v.z,
   M 2 0 * v.x + M 2 1 * v.y + M 2 2 * v.z⟩

/-- Modelled from the spec: the `Texture` of the missing `Texture.hpp`, an external
collaborator that exposes `getColor(u,v)` and its width and height. -/
structure Texture (F : Type) where
  width : F
  height : F
  getColor : F → F → Vec3 F

/-- Modelled from the spec: the `fragment_shader_payload` of the missing `Shader.hpp`:
view-space position, base colour, normal, texture coordinates and an optional texture. -/
structure fragment_shader_payload (F : Type) where
  view_pos : Vec3 F
  color : Vec3 F
  normal : Vec3 F
  tex_u : F
  tex_v : F
  texture : Option (Texture F)

/-- Normal visualisation: `normal_fragment_shader` of `main.cpp`. -/
def normal_fragment_shader {F : Type} [LinearOrderedField F] (sqrt : F → F)
    (payload : fragment_shader_payload F) : Option (Vec3 F) := do
  let n ← Vec3.normalized sqrt payload.normal
  let return_color := Vec3.divConst (Vec3.add n ⟨1, 1, 1⟩) 2
  pure ⟨return_color.x * 255, return_color.y * 255, return_color.z * 255⟩

/-- Tangent, bitangent and normal matrix built in `bump_fragment_shader` (lines 217-231) and
again in `displacement_fragment_shader` (lines 275-289) from the normalised normal. -/
def buildTBN {F : Type} [LinearOrderedField F] (sqrt : F → F) (normal : Vec3 F) :
    Option (Mat3 F) := do
  let x := normal.x
  let y := normal.y
  let z := normal.z
  let sqrtx2pz2 := sqrt (x * x + z * z)
  let tx ← fdiv (x * y) sqrtx2pz2
  let tz ← fdiv (z * y) sqrtx2pz2
  let t ← Vec3.normalized sqrt ⟨tx, sqrtx2pz2, tz⟩
  let b ← Vec3.normalized sqrt (Vec3.cross normal t)
  pure !![t.x, b.x, normal.x;
          t.y, b.y, normal.y;
          t.z, b.z, normal.z]

/-- Perturbed normal of `bump_fragment_shader` (lines 233-246) and of
`displacement_fragment_shader` (lines 291-304): finite differences of the texture height. -/
def perturbNormal {F : Type} [LinearOrderedField F] (sqrt : F → F) (TBN : Mat3 F)
    (tex : Texture F) (u v : F) : Option (Vec3 F) := do
  let kh : F := 0.2
  let kn : F := 0.1
  let w := tex.width
  let h := tex.height
  let height := Vec3.norm sqrt (tex.getColor u v)
  let iw ← fdiv 1 w
  let ih ← fdiv 1 h
  let height_u := Vec3.norm sqrt (tex.getColor (u + iw) v)
  let height_v := Vec3.norm sqrt (tex.getColor u (v + ih))
  let du := kh * kn * (height_u - height)
  let dv := kh * kn * (height_v - height)
  let localNormal : Vec3 F := ⟨-du, -dv, 1⟩
  Vec3.normalized sqrt (Mat3.mulVec3 TBN localNormal)

/-- Bump mapping: `bump_fragment_shader` of `main.cpp`. The texture pointer is dereferenced
without a check, so a payload without a texture has no result. -/
def bump_fragment_shader {F : Type} [LinearOrderedField F] (sqrt : F → F)
    (payload : fragment_shader_payload F) : Option (Vec3 F) := do
  let normal ← Vec3.normalized sqrt payload.normal
  let TBN ← buildTBN sqrt normal
  let tex ← payload.texture
  let normal ← perturbNormal sqrt TBN tex payload.tex_u payload.tex_v
  pure (Vec3.mulScalar normal 255)

/-- Point light: `struct light` of `main.cpp`. -/
structure light (F : Type) where
  position : Vec3 F
  intensity : Vec3 F

/-- Blinn-Phong shading: `phong_fragment_shader` of `main.cpp`. The exponent `p = 150.0f` of
`std::pow` is a natural power; `light.intensity / distance2` is a checked division. -/
def phong_fragment_shader {F : Type} [LinearOrderedField F] (sqrt : F → F)
    (payload : fragment_shader_payload F) : Option (Vec3 F) := do
  let ka : Vec3 F := ⟨0.005, 0.005, 0.005⟩
  let kd := payload.color
  let ks : Vec3 F := ⟨0.7937, 0.7937, 0.7937⟩
  let lights : List (light F) :=
    [⟨⟨20, 20, 20⟩, ⟨500, 500, 500⟩⟩, ⟨⟨-20, 20, 0⟩, ⟨500, 500, 500⟩⟩]
  let amb_light_intensity : Vec3 F := ⟨10, 10, 10⟩
  let eye_pos : Vec3 F := ⟨0, 0, 10⟩
  let p : ℕ := 150
  let normal ← Vec3.normalized sqrt payload.normal
  let point := payload.view_pos
  let viewDir ← Vec3.normalized sqrt (Vec3.sub eye_pos point)
  let color ← lights.foldlM (fun (color : Vec3 F) (light : light F) => do
      let lightDir := Vec3.sub light.position point
      let distance2 := Vec3.dot lightDir lightDir
      let lightDir ← Vec3.normalized sqrt lightDir
      let halfDir ← Vec3.normalized sqrt (Vec3.add viewDir lightDir)
      let NdotL := Vec3.dot normal lightDir
      let NdotH := Vec3.dot normal halfDir
      let intensity ← Vec3.divScalar light.intensity distance2
      let ambient := Vec3.cwiseProduct ka amb_light_intensity
      let diffuse := Vec3.mulScalar (Vec3.cwiseProduct kd intensity) (max 0 NdotL)
      let specular := Vec3.mulScalar (Vec3.cwiseProduct ks intensity) ((max 0 NdotH) ^ p)
      pure (Vec3.add color (Vec3.add (Vec3.add ambient diffuse) specular)))
    (⟨0, 0, 0⟩ : Vec3 F)
  pure (Vec3.mulScalar color 255)

/-- Textured Blinn-Phong shading: `texture_fragment_shader` of `main.cpp`. -/
def texture_fragment_shader {F : Type} [LinearOrderedField F] (sqrt : F → F)
    (payload : fragment_shader_payload F) : Option (Vec3 F) := do
  let reciprocal : F := 1 / 255
  let ka : Vec3 F := ⟨0.005, 0.005, 0.005⟩
  let kd : Vec3 F :=
    match payload.texture with
    | some texture => Vec3.mulScalar (texture.getColor payload.tex_u payload.tex_v) reciprocal
    | none => payload.color
  let ks : Vec3 F := ⟨0.7937, 0.7937, 0.7937⟩
  let lights : List (light F) :=
    [⟨⟨20, 20, 20⟩, ⟨500, 500, 500⟩⟩, ⟨⟨-20, 20, 0⟩, ⟨500, 500, 500⟩⟩]
  let amb_light_intensity : Vec3 F := ⟨10, 10, 10⟩
  let eye_pos : Vec3 F := ⟨0, 0, 10⟩
  let p : ℕ := 150
  let normal ← Vec3.normalized sqrt payload.normal
  let point := payload.view_pos
  let viewDir ← Vec3.normalized sqrt (Vec3.sub eye_pos point)
  let color ← lights.foldlM (fun (color : Vec3 F) (light : light F) => do
      let lightDir := Vec3.sub light.position point
      let distance2 := Vec3.dot lightDir lightDir
      let lightDir ← Vec3.normalized sqrt lightDir
      let halfDir ← Vec3.normalized sqrt (Vec3.add viewDir lightDir)
      let NdotL := Vec3.dot normal lightDir
      let NdotH := Vec3.dot normal halfDir
      let intensity ← Vec3.divScalar light.intensity distance2
      let ambient := Vec3.cwiseProduct ka amb_light_intensity
      let diffuse := Vec3.mulScalar (Vec3.cwiseProduct kd intensity) (max 0 NdotL)
      let specular := Vec3.mulScalar (Vec3.cwiseProduct ks intensity) ((max 0 NdotH) ^ p)
      pure (Vec3.add color (Vec3.add (Vec3.add ambient diffuse) specular)))
    (⟨0, 0, 0⟩ : Vec3 F)
  pure (Vec3.mulScalar color 255)

/-- Displacement mapping: `displacement_fragment_shader` of `main.cpp`. The texture pointer is
dereferenced without a check, so a payload without a texture has no result. -/
def displacement_fragment_shader {F : Type} [LinearOrderedField F] (sqrt : F → F)
    (payload : fragment_shader_payload F) : Option (Vec3 F) := do
  let ka : Vec3 F := ⟨0.005, 0.005, 0.005⟩
  let kd := payload.color
  let ks : Vec3 F := ⟨0.7937, 0.7937, 0.7937⟩
  let lights : List (light F) :=
    [⟨⟨20, 20, 20⟩, ⟨500, 500, 500⟩⟩, ⟨⟨-20, 20, 0⟩, ⟨500, 500, 500⟩⟩]
  let amb_light_intensity : Vec3 F := ⟨10, 10, 10⟩
  let eye_pos : Vec3 F := ⟨0, 0, 10⟩
  let kn : F := 0.1
  let p : ℕ := 150
  let point := payload.view_pos
  let normal ← Vec3.normalized sqrt payload.normal
  let viewDir ← Vec3.normalized sqrt (Vec3.sub eye_pos point)
  let tex ← payload.texture
  let point := Vec3.add point
    (Vec3.mulScalar (Vec3.smul kn normal)
      (Vec3.norm sqrt (tex.getColor payload.tex_u payload.tex_v)))
  let TBN ← buildTBN sqrt normal
  let normal ← perturbNormal sqrt TBN tex payload.tex_u payload.tex_v
  let color ← lights.foldlM (fun (color : Vec3 F) (light : light F) => do
      let pointToLight := Vec3.sub light.position point
      let distance2 := Vec3.dot pointToLight pointToLight
      let lightDir ← Vec3.normalized sqrt pointToLight
      let halfDir ← Vec3.normalized sqrt (Vec3.add viewDir lightDir)
      let NdotL := Vec3.dot normal lightDir
      let NdotH := Vec3.dot normal halfDir
      let intensity ← Vec3.divScalar light.intensity distance2
      let ambient := Vec3.cwiseProduct ka amb_light_intensity
      let diffuse := Vec3.mulScalar (Vec3.cwiseProduct kd intensity) (max 0 NdotL)
      let specular := Vec3.mulScalar (Vec3.cwiseProduct ks intensity) ((max 0 NdotH) ^ p)
      pure (Vec3.add color (Vec3.add (Vec3.add ambient diffuse) specular)))
    (⟨0, 0, 0⟩ : Vec3 F)
  pure (Vec3.mulScalar color 255)

/-! ## Assignment 7: materials -/

/-- Material kinds: `enum class MaterialType` of `Material.hpp`. -/
inductive MaterialType where
  | DIFFUSE
  | PBR
  | MIRROR
deriving DecidableEq, Repr

/-- Data members of `class Material`. -/
structure Material (F : Type) where
  m_type : MaterialType
  m_emission : Vec3 F
  ior : F
  Kd : Vec3 F
  Ks : Vec3 F
  specularExponent : F
  m_albedo : Vec3 F
  m_metallic : F
  m_roughness : F

namespace Material

variable {F : Type}

/-- The macro `MY_PI` defined at line 12 of `Material.hpp`. -/
def MY_PI [Field F] : F := 3.1415926535897932384626433832795

/-- Modelled from the spec: `dotProduct` of the missing `Vector.hpp`. -/
def dotProduct [Add F] [Mul F] (a b : Vec3 F) : F := a.x * b.x + a.y * b.y + a.z * b.z

/-- Modelled from the spec: `crossProduct` of the missing `Vector.hpp`. -/
def crossProduct [Sub F] [Mul F] (a b : Vec3 F) : Vec3 F :=
  ⟨a.y * b.z - a.z * b.y, a.z * b.x - a.x * b.z, a.x * b.y - a.y * b.x⟩

/-- Reflection direction: `Material::reflect`. -/
def reflect [Field F] (I N : Vec3 F) : Vec3 F :=
  Vec3.sub I (Vec3.smul (2 * dotProduct I N) N)

/-- Local to world transform: `Material::toWorld`. The reciprocal `1.0f / std::sqrt(...)`
is a checked division. -/
def toWorld [LinearOrderedField F] (sqrt : F → F) (a N : Vec3 F) : Option (Vec3 F) := do
  let C ←
    if |N.x| > |N.y| then do
      let invLen ← fdiv 1 (sqrt (N.x * N.x + N.z * N.z))
      pure (⟨N.z * invLen, 0, -N.x * invLen⟩ : Vec3 F)
    else do
      let invLen ← fdiv 1 (sqrt (N.y * N.y + N.z * N.z))
      pure (⟨0, N.z * invLen, -N.y * invLen⟩ : Vec3 F)
  let B := crossProduct C N
  pure (Vec3.add (Vec3.add (Vec3.smul a.x B) (Vec3.smul a.y C)) (Vec3.smul a.z N))

/-- Fresnel term: `Material::FresnelSchlick`. -/
def FresnelSchlick [Field F] (cosTheta : F) (F0 : Vec3 F) : Vec3 F :=
  Vec3.add F0 (Vec3.mulScalar (Vec3.sub ⟨1, 1, 1⟩ F0) ((1 - cosTheta) ^ 5))

/-- Normal distribution term: `Material::DistributionGGX`. -/
def DistributionGGX [Field F] (NdotH rough : F) : F :=
  let a := rough * rough
  let a2 := a * a
  let denom := NdotH * NdotH * (a2 - 1) + 1
  a2 / MY_PI * denom * denom

/-- Visibility term: `Material::Visibility`; both reciprocals are checked divisions. -/
def Visibility [Field F] [DecidableEq F] (NdotV NdotL rough : F) : Option F := do
  let f := rough + 1
  let k := f * f * 0.125
  let ggxV ← fdiv 1 (NdotV * (1 - k) + k)
  let ggxL ← fdiv 1 (NdotL * (1 - k) + k)
  pure (ggxV * ggxL * 0.25)

/-- Linear interpolation of vectors: `Material::LerpVec3`. -/
def LerpVec3 [Field F] (a b : Vec3 F) (t : F) : Vec3 F :=
  Vec3.add a (Vec3.mulScalar (Vec3.sub b a) t)

/-- Outgoing direction: `Material::sample`. The two calls of `get_random_float()` are the
arguments `x_1` and `x_2`. -/
def sample [LinearOrderedField F] (sqrt cos sin : F → F) (M_PI : F) (m : Material F)
    (x_1 x_2 : F) (wi N : Vec3 F) : Option (Vec3 F) :=
  match m.m_type with
  | MaterialType.DIFFUSE | MaterialType.PBR =>
    let z := |1 - 2 * x_1|
    let r := sqrt (1 - z * z)
    let phi := 2 * M_PI * x_2
    let localRay : Vec3 F := ⟨r * cos phi, r * sin phi, z⟩
    toWorld sqrt localRay N
  | MaterialType.MIRROR => some (reflect wi N)

/-- Sampling density: `Material::pdf`. -/
def pdf [LinearOrderedField F] (M_PI : F) (m : Material F) (_wi wo N : Vec3 F) : F :=
  if dotProduct wo N ≤ 0 then 0
  else
    match m.m_type with
    | MaterialType.DIFFUSE | MaterialType.PBR => 0.5 / M_PI
    | MaterialType.MIRROR => 1

/-- BRDF value: `Material::eval`. -/
def eval [LinearOrderedField F] (sqrt : F → F) (M_PI : F) (m : Material F)
    (wi wo N : Vec3 F) : Option (Vec3 F) :=
  if dotProduct N wo ≤ 0 then some ⟨0, 0, 0⟩
  else
    match m.m_type with
    | MaterialType.DIFFUSE => some (Vec3.divConst m.Kd M_PI)
    | MaterialType.PBR => do
      let lightDir ← Vec3.normalizedV sqrt wo
      let viewDir := Vec3.neg (← Vec3.normalizedV sqrt wi)
      let harfDir ← Vec3.normalizedV sqrt (Vec3.add lightDir viewDir)
      let NdotV := max (dotProduct N viewDir) 0
      let NdotL := max (dotProduct N lightDir) 0
      let NdotH := max (dotProduct N harfDir) 0
      let HdotV := max (dotProduct harfDir viewDir) 0
      let F0 := LerpVec3 ⟨0.04, 0.04, 0.04⟩ m.m_albedo m.m_metallic
      let Fre := FresnelSchlick HdotV F0
      let NDF := DistributionGGX NdotH m.m_roughness
      let Vis ← Visibility NdotV NdotL m.m_roughness
      let specularBRDF := Vec3.mulScalar (Vec3.mulScalar Fre NDF) Vis
      let KD := LerpVec3 (Vec3.sub ⟨1, 1, 1⟩ Fre) ⟨1, 1, 1⟩ m.m_metallic
      let diffuseBRDF := Vec3.divConst m.m_albedo MY_PI
      pure (Vec3.add (Vec3.cwiseProduct KD diffuseBRDF) specularBRDF)
    | MaterialType.MIRROR => some ⟨1, 1, 1⟩

end Material

/-! ## Auxiliary definitions used in the statements -/

/-- The first three components of a four-component vector. -/
def Vec4.head3 {F : Type} (v : Vec4 F) : Vec3 F := ⟨v 0, v 1, v 2⟩

/-- Rotation about the y axis by the angle `a` (in radians), as a three by three matrix. -/
def rotationY {F : Type} [Field F] (cos sin : F → F) (a : F) : Mat3 F :=
  !![cos a, 0, sin a;
     0, 1, 0;
     -sin a, 0, cos a]

/-- Three vectors form an orthonormal frame: unit length and pairwise orthogonal. -/
def orthonormalFrame {F : Type} [Field F] (B C N : Vec3 F) : Prop :=
  Material.dotProduct B B = 1 ∧ Material.dotProduct C C = 1 ∧ Material.dotProduct N N = 1 ∧
  Material.dotProduct B C = 0 ∧ Material.dotProduct B N = 0 ∧ Material.dotProduct C N = 0

/-- A diffuse material over the rationals, used to evaluate the definitions. -/
def sampleDiffuse : Material ℚ :=
  ⟨MaterialType.DIFFUSE, ⟨0, 0, 0⟩, 1, ⟨1, 1, 1⟩, ⟨0, 0, 0⟩, 0, ⟨1, 1, 1⟩, 0, 1⟩

/-- A mirror material over the rationals. -/
def sampleMirror : Material ℚ :=
  ⟨MaterialType.MIRROR, ⟨0, 0, 0⟩, 1, ⟨1, 1, 1⟩, ⟨0, 0, 0⟩, 0, ⟨1, 1, 1⟩, 0, 1⟩

/-- A PBR material over the rationals. -/
def samplePBR : Material ℚ :=
  ⟨MaterialType.PBR, ⟨0, 0, 0⟩, 1, ⟨1, 1, 1⟩, ⟨0, 0, 0⟩, 0, ⟨1, 1, 1⟩, 1 / 2, 1 / 2⟩

/-- A payload with the vertical unit normal `(0, 1, 0)` and a one by one texture that returns
black everywhere. -/
def verticalNormalPayload (F : Type) [Field F] : fragment_shader_payload F :=
  { view_pos := ⟨0, 0, 0⟩, color := ⟨0, 0, 0⟩, normal := ⟨0, 1, 0⟩, tex_u := 0, tex_v := 0,
    texture := some ⟨1, 1, fun _ _ => ⟨0, 0, 0⟩⟩ }

/-- A payload with the unit normal `(0, 0, 1)` and a one by one texture that returns the colour
`(1, 2, 3)` everywhere. -/
def frontNormalPayload (F : Type) [Field F] : fragment_shader_payload F :=
  { view_pos := ⟨0, 0, 0⟩, color := ⟨0, 0, 0⟩, normal := ⟨0, 0, 1⟩, tex_u := 0, tex_v := 0,
    texture := some ⟨1, 1, fun _ _ => ⟨1, 2, 3⟩⟩ }

/-- A payload with the unit normal `(0, 0, -1)` and a one by one texture that returns the
colour `(1, 2, 3)` everywhere. -/
def backNormalPayload (F : Type) [Field F] : fragment_shader_payload F :=
  { view_pos := ⟨0, 0, 0⟩, color := ⟨0, 0, 0⟩, normal := ⟨0, 0, -1⟩, tex_u := 0, tex_v := 0,
    texture := some ⟨1, 1, fun _ _ => ⟨1, 2, 3⟩⟩ }

/-- A payload at the origin with the unit normal `(0, 0, 1)`, a grey base colour and no
texture. -/
def untexturedPayload (F : Type) [Field F] : fragment_shader_payload F :=
  { view_pos := ⟨0, 0, 0⟩, color := ⟨1 / 2, 1 / 2, 1 / 2⟩, normal := ⟨0, 0, 1⟩, tex_u := 0,
    tex_v := 0, texture := none }

/-- The cosine `dot(sample(wi, N), N)` of a sampled direction with the normal, as a function of
the two random numbers; 0 where `sample` has no result. -/
def sampleDotNormal {F : Type} [LinearOrderedField F] (sqrt cos sin : F → F) (M_PI : F)
    (m : Material F) (wi N : Vec3 F) (x_1 x_2 : F) : F :=
  match Material.sample sqrt cos sin M_PI m x_1 x_2 wi N with
  | some s => Material.dotProduct s N
  | none => 0

/-- Value of the PBR arm of `Material::eval` (lines 229-238) as a function of the clamped
cosines `NdotH`, `HdotV` and of the visibility term. -/
def pbrColor {F : Type} [Field F] (m : Material F) (NdotH HdotV Vis : F) : Vec3 F :=
  let F0 := Material.LerpVec3 ⟨0.04, 0.04, 0.04⟩ m.m_albedo m.m_metallic
  let Fre := Material.FresnelSchlick HdotV F0
  let NDF := Material.DistributionGGX NdotH m.m_roughness
  let specularBRDF := Vec3.mulScalar (Vec3.mulScalar Fre NDF) Vis
  let KD := Material.LerpVec3 (Vec3.sub ⟨1, 1, 1⟩ Fre) ⟨1, 1, 1⟩ m.m_metallic
  let diffuseBRDF := Vec3.divConst m.m_albedo Material.MY_PI
  Vec3.add (Vec3.cwiseProduct KD diffuseBRDF) specularBRDF

/-- A payload at the origin with the unit normal `(0, 0, 1)` and a one by one texture that
returns black everywhere. -/
def flatTexturePayload (F : Type) [Field F] : fragment_shader_payload F :=
  { view_pos := ⟨0, 0, 0⟩, color := ⟨1 / 2, 1 / 2, 1 / 2⟩, normal := ⟨0, 0, 1⟩, tex_u := 0,
    tex_v := 0, texture := some ⟨1, 1, fun _ _ => ⟨0, 0, 0⟩⟩ }

/-- A payload at the origin with the unit normal `(0, -1, 0)`, a grey base colour and no
texture. -/
def downNormalPayload (F : Type) [Field F] : fragment_shader_payload F :=
  { view_pos := ⟨0, 0, 0⟩, color := ⟨1 / 2, 1 / 2, 1 / 2⟩, normal := ⟨0, -1, 0⟩, tex_u := 0,
    tex_v := 0, texture := none }

/-! ## Auxiliary lemmas -/

/-- A checked division by a non-zero divisor succeeds. -/
theorem fdiv_of_ne {F : Type} [Field F] [DecidableEq F] (a : F) {b : F} (h : b ≠ 0) :
    fdiv a b = some (a / b) := by
  simp [fdiv, h]

/-- Product of two four by four matrices given by their entries. -/
theorem mat4_mul {F : Type} [Field F]
    (a00 a01 a02 a03 a10 a11 a12 a13 a20 a21 a22 a23 a30 a31 a32 a33
     b00 b01 b02 b03 b10 b11 b12 b13 b20 b21 b22 b23 b30 b31 b32 b33 : F) :
    (!![a00, a01, a02, a03; a10, a11, a12, a13; a20, a21, a22, a23; a30, a31, a32, a33] : Mat4 F)
      * !![b00, b01, b02, b03; b10, b11, b12, b13; b20, b21, b22, b23; b30, b31, b32, b33]
    = !![a00 * b00 + a01 * b10 + a02 * b20 + a03 * b30,
         a00 * b01 + a01 * b11 + a02 * b21 + a03 * b31,
         a00 * b02 + a01 * b12 + a02 * b22 + a03 * b32,
         a00 * b03 + a01 * b13 + a02 * b23 + a03 * b33;
         a10 * b00 + a11 * b10 + a12 * b20 + a13 * b30,
         a10 * b01 + a11 * b11 + a12 * b21 + a13 * b31,
         a10 * b02 + a11 * b12 + a12 * b22 + a13 * b32,
         a10 * b03 + a11 * b13 + a12 * b23 + a13 * b33;
         a20 * b00 + a21 * b10 + a22 * b20 + a23 * b30,
         a20 * b01 + a21 * b11 + a22 * b21 + a23 * b31,
         a20 * b02 + a21 * b12 + a22 * b22 + a23 * b32,
         a20 * b03 + a21 * b13 + a22 * b23 + a23 * b33;
         a30 * b00 + a31 * b10 + a32 * b20 + a33 * b30,
         a30 * b01 + a31 * b11 + a32 * b21 + a33 * b31,
         a30 * b02 + a31 * b12 + a32 * b22 + a33 * b32,
         a30 * b03 + a31 * b13 + a32 * b23 + a33 * b33] :=
  (Matrix.mulᵣ_eq _ _).symm

/-- Product of a four by four matrix given by its entries with a column vector. -/
theorem mat4_mulVec {F : Type} [Field F]
    (a00 a01 a02 a03 a10 a11 a12 a13 a20 a21 a22 a23 a30 a31 a32 a33 x y z w : F) :
    Matrix.mulVec
      (!![a00, a01, a02, a03; a10, a11, a12, a13; a20, a21, a22, a23; a30, a31, a32, a33] : Mat4 F)
      ![x, y, z, w]
    = ![a00 * x + a01 * y + a02 * z + a03 * w,
        a10 * x + a11 * y + a12 * z + a13 * w,
        a20 * x + a21 * y + a22 * z + a23 * w,
        a30 * x + a31 * y + a32 * z + a33 * w] :=
  (Matrix.mulVecᵣ_eq _ _).symm

/-- Division of a vector by a non-zero scalar succeeds. -/
theorem divScalar_of_ne {F : Type} [Field F] [DecidableEq F] (a : Vec3 F) {r : F} (h : r ≠ 0) :
    Vec3.divScalar a r = some ⟨a.x / r, a.y / r, a.z / r⟩ := by
  simp [Vec3.divScalar, h]

/-- A non-zero real vector has positive squared length. -/
theorem dot_self_pos_of_ne (a : Vec3 ℝ) (h : a ≠ ⟨0, 0, 0⟩) : 0 < Vec3.dot a a := by
  rcases a with ⟨x, y, z⟩
  have hne : ¬ (x = 0 ∧ y = 0 ∧ z = 0) := by
    rintro ⟨rfl, rfl, rfl⟩
    exact h rfl
  simp only [Vec3.dot]
  by_contra hle
  apply hne
  have hx := mul_self_nonneg x
  have hy := mul_self_nonneg y
  have hz := mul_self_nonneg z
  refine ⟨?_, ?_, ?_⟩ <;> apply mul_self_eq_zero.mp <;> linarith

/-- Over the reals, normalising a non-zero vector divides it by its length. -/
theorem normalized_of_pos (a : Vec3 ℝ) (h : 0 < Vec3.dot a a) :
    Vec3.normalized Real.sqrt a
      = some ⟨a.x / Vec3.norm Real.sqrt a, a.y / Vec3.norm Real.sqrt a,
          a.z / Vec3.norm Real.sqrt a⟩ := by
  have hs : Real.sqrt (Vec3.dot a a) ≠ 0 := (Real.sqrt_pos.mpr h).ne'
  simp only [Vec3.normalized, if_pos h, Vec3.norm]
  exact divScalar_of_ne a hs

/-- Over the reals, Eigen's `normalized()` always produces a vector. -/
theorem normalized_total (a : Vec3 ℝ) : ∃ v, Vec3.normalized Real.sqrt a = some v := by
  by_cases h : 0 < Vec3.dot a a
  · exact ⟨_, normalized_of_pos a h⟩
  · exact ⟨a, by simp [Vec3.normalized, h]⟩

/-- Over the reals, a unit vector is its own normalisation. -/
theorem normalized_of_unit (a : Vec3 ℝ) (h : Vec3.norm Real.sqrt a = 1) :
    Vec3.normalized Real.sqrt a = some a := by
  have hd : Vec3.dot a a = 1 := by
    have := Real.sqrt_eq_one.mp h
    exact this
  rw [normalized_of_pos a (by rw [hd]; norm_num), h]
  simp

/-- Squared length and height of a combination of an orthonormal frame. -/
theorem frame_combination {F : Type} [Field F] (B C N a : Vec3 F)
    (hBB : Material.dotProduct B B = 1) (hCC : Material.dotProduct C C = 1) (hNN : Material.dotProduct N N = 1)
    (hBC : Material.dotProduct B C = 0) (hBN : Material.dotProduct B N = 0) (hCN : Material.dotProduct C N = 0) :
    Vec3.dot (Vec3.add (Vec3.add (Vec3.smul a.x B) (Vec3.smul a.y C)) (Vec3.smul a.z N))
        (Vec3.add (Vec3.add (Vec3.smul a.x B) (Vec3.smul a.y C)) (Vec3.smul a.z N))
      = a.x * a.x + a.y * a.y + a.z * a.z ∧
    Material.dotProduct (Vec3.add (Vec3.add (Vec3.smul a.x B) (Vec3.smul a.y C)) (Vec3.smul a.z N)) N
      = a.z := by
  simp only [Material.dotProduct, Vec3.dot, Vec3.add, Vec3.smul] at *
  constructor
  · linear_combination a.x * a.x * hBB + a.y * a.y * hCC + a.z * a.z * hNN
      + 2 * a.x * a.y * hBC + 2 * a.x * a.z * hBN + 2 * a.y * a.z * hCN
  · linear_combination a.x * hBN + a.y * hCN + a.z * hNN

/-- The cross product of two orthogonal unit vectors completes them to an orthonormal frame. -/
theorem cross_frame {F : Type} [Field F] (C N : Vec3 F)
    (hCC : Material.dotProduct C C = 1) (hNN : Material.dotProduct N N = 1) (hCN : Material.dotProduct C N = 0) :
    Material.dotProduct (Material.crossProduct C N) (Material.crossProduct C N) = 1 ∧
    Material.dotProduct (Material.crossProduct C N) C = 0 ∧ Material.dotProduct (Material.crossProduct C N) N = 0 := by
  simp only [Material.dotProduct, Material.crossProduct] at *
  refine ⟨?_, ?_, ?_⟩
  · linear_combination
      (N.x * N.x + N.y * N.y + N.z * N.z) * hCC + hNN
        - (C.x * N.x + C.y * N.y + C.z * N.z) * hCN
  · ring
  · ring

/-- For a unit normal, `toWorld` performs no division by zero and combines the argument with an
orthonormal frame `(Material.crossProduct C N, C, N)`. -/
theorem toWorld_frame (N : Vec3 ℝ) (hN : Vec3.norm Real.sqrt N = 1) :
    ∃ C : Vec3 ℝ, Material.dotProduct C C = 1 ∧ Material.dotProduct C N = 0 ∧
      ∀ a : Vec3 ℝ, Material.toWorld Real.sqrt a N
        = some (Vec3.add (Vec3.add (Vec3.smul a.x (Material.crossProduct C N)) (Vec3.smul a.y C))
            (Vec3.smul a.z N)) := by
  have hN2 : N.x * N.x + N.y * N.y + N.z * N.z = 1 := Real.sqrt_eq_one.mp hN
  by_cases hc : |N.x| > |N.y|
  · have hx : N.x ≠ 0 := by
      intro h0
      rw [h0, abs_zero] at hc
      exact absurd hc (not_lt.mpr (abs_nonneg _))
    have hq : 0 < N.x * N.x + N.z * N.z := by
      have := mul_self_pos.mpr hx
      nlinarith [mul_self_nonneg N.z]
    have hL : Real.sqrt (N.x * N.x + N.z * N.z) ≠ 0 := (Real.sqrt_pos.mpr hq).ne'
    have hLL := Real.mul_self_sqrt hq.le
    refine ⟨⟨N.z * (1 / Real.sqrt (N.x * N.x + N.z * N.z)), 0,
      -N.x * (1 / Real.sqrt (N.x * N.x + N.z * N.z))⟩, ?_, ?_, ?_⟩
    · simp only [Material.dotProduct]
      generalize Real.sqrt _ = L at hL hLL ⊢
      field_simp
      linear_combination -hLL
    · simp only [Material.dotProduct]
      ring
    · intro a
      simp [Material.toWorld, hc, fdiv_of_ne _ hL]
  · have hq : 0 < N.y * N.y + N.z * N.z := by
      by_contra hle
      have hy : N.y = 0 := by
        apply mul_self_eq_zero.mp
        nlinarith [mul_self_nonneg N.y, mul_self_nonneg N.z]
      have hz : N.z = 0 := by
        apply mul_self_eq_zero.mp
        nlinarith [mul_self_nonneg N.y, mul_self_nonneg N.z]
      have hx : N.x = 0 := by
        rw [hy, abs_zero] at hc
        exact abs_eq_zero.mp (le_antisymm (not_lt.mp hc) (abs_nonneg _))
      rw [hx, hy, hz] at hN2
      norm_num at hN2
    have hL : Real.sqrt (N.y * N.y + N.z * N.z) ≠ 0 := (Real.sqrt_pos.mpr hq).ne'
    have hLL := Real.mul_self_sqrt hq.le
    refine ⟨⟨0, N.z * (1 / Real.sqrt (N.y * N.y + N.z * N.z)),
      -N.y * (1 / Real.sqrt (N.y * N.y + N.z * N.z))⟩, ?_, ?_, ?_⟩
    · simp only [Material.dotProduct]
      generalize Real.sqrt _ = L at hL hLL ⊢
      field_simp
      linear_combination -hLL
    · simp only [Material.dotProduct]
      ring
    · intro a
      simp [Material.toWorld, hc, fdiv_of_ne _ hL]

/-- A colour channel `127.5 * (c / L + 1)` lies in `[0, 255]` when `|c| ≤ L`. -/
theorem channel_bounds (c L : ℝ) (hL : 0 < L) (hc : |c| ≤ L) :
    0 ≤ 127.5 * (c / L + 1) ∧ 127.5 * (c / L + 1) ≤ 255 := by
  obtain ⟨h1, h2⟩ := abs_le.mp hc
  have h3 : -1 ≤ c / L := by
    rw [le_div_iff₀ hL]
    linarith
  have h4 : c / L ≤ 1 := by
    rw [div_le_iff₀ hL]
    linarith
  constructor <;> nlinarith

/-- Entries of the product `translate * rotation * scale` of `get_model_matrix`. -/
theorem get_model_matrix_entries {F : Type} [Field F] (cos sin : F → F) (MY_PI theta : F) :
    get_model_matrix cos sin MY_PI theta
      = !![cos (theta * MY_PI / 180) * 2.5, 0, sin (theta * MY_PI / 180) * 2.5, 0;
           0, 2.5, 0, 0;
           -(sin (theta * MY_PI / 180) * 2.5), 0, cos (theta * MY_PI / 180) * 2.5, 0;
           0, 0, 0, 1] := by
  unfold get_model_matrix
  simp only [mat4_mul]
  simp

/-- Over the reals, a normalised vector has squared length at most 1. -/
theorem normalized_dot_le_one (a u : Vec3 ℝ) (h : Vec3.normalized Real.sqrt a = some u) :
    Vec3.dot u u ≤ 1 := by
  by_cases hpos : 0 < Vec3.dot a a
  · rw [normalized_of_pos a hpos] at h
    have hu := Option.some.inj h
    have hs : Real.sqrt (Vec3.dot a a) ≠ 0 := (Real.sqrt_pos.mpr hpos).ne'
    have hss := Real.mul_self_sqrt hpos.le
    rw [← hu]
    simp only [Vec3.norm]
    generalize Real.sqrt (Vec3.dot a a) = L at hs hss
    simp only [Vec3.dot] at hss ⊢
    apply le_of_eq
    field_simp
    linear_combination -hss
  · simp only [Vec3.normalized, if_neg hpos] at h
    have hu := Option.some.inj h
    rw [← hu]
    linarith

/-- A real vector of squared length at most 1 has every component in `[-1, 1]`. -/
theorem components_le_one (u : Vec3 ℝ) (h : Vec3.dot u u ≤ 1) :
    (-1 ≤ u.x ∧ u.x ≤ 1) ∧ (-1 ≤ u.y ∧ u.y ≤ 1) ∧ (-1 ≤ u.z ∧ u.z ≤ 1) := by
  simp only [Vec3.dot] at h
  refine ⟨⟨?_, ?_⟩, ⟨?_, ?_⟩, ⟨?_, ?_⟩⟩ <;>
    nlinarith [mul_self_nonneg u.x, mul_self_nonneg u.y, mul_self_nonneg u.z,
      mul_self_nonneg (u.x - 1), mul_self_nonneg (u.x + 1), mul_self_nonneg (u.y - 1),
      mul_self_nonneg (u.y + 1), mul_self_nonneg (u.z - 1), mul_self_nonneg (u.z + 1)]

/-- The tangent `(x*y/s, s, z*y/s)` with `s = sqrt(x*x + z*z)` of a unit normal `(x, y, z)`
with `x*x + z*z > 0` has unit length, and its dot product with the normal is `2*y*s`. -/
theorem tangent_facts (n : Vec3 ℝ) (hn : Vec3.norm Real.sqrt n = 1)
    (hxz : 0 < n.x * n.x + n.z * n.z) :
    Real.sqrt (n.x * n.x + n.z * n.z) ≠ 0 ∧
    Vec3.dot
        ⟨n.x * n.y / Real.sqrt (n.x * n.x + n.z * n.z), Real.sqrt (n.x * n.x + n.z * n.z),
          n.z * n.y / Real.sqrt (n.x * n.x + n.z * n.z)⟩
        ⟨n.x * n.y / Real.sqrt (n.x * n.x + n.z * n.z), Real.sqrt (n.x * n.x + n.z * n.z),
          n.z * n.y / Real.sqrt (n.x * n.x + n.z * n.z)⟩ = 1 ∧
    Vec3.dot
        ⟨n.x * n.y / Real.sqrt (n.x * n.x + n.z * n.z), Real.sqrt (n.x * n.x + n.z * n.z),
          n.z * n.y / Real.sqrt (n.x * n.x + n.z * n.z)⟩ n
      = 2 * n.y * Real.sqrt (n.x * n.x + n.z * n.z) := by
  have hn2 : n.x * n.x + n.y * n.y + n.z * n.z = 1 := Real.sqrt_eq_one.mp hn
  have hs : Real.sqrt (n.x * n.x + n.z * n.z) ≠ 0 := (Real.sqrt_pos.mpr hxz).ne'
  have hss := Real.mul_self_sqrt hxz.le
  refine ⟨hs, ?_, ?_⟩
  · generalize Real.sqrt (n.x * n.x + n.z * n.z) = s at hs hss
    simp only [Vec3.dot]
    field_simp
    linear_combination (s * s - n.y * n.y) * hss + s * s * hn2
  · generalize Real.sqrt (n.x * n.x + n.z * n.z) = s at hs hss
    simp only [Vec3.dot]
    field_simp
    linear_combination (-n.y) * hss

/-- For a unit normal `(x, y, z)` with `x*x + z*z > 0` the matrix of `buildTBN` is defined; its
first column is the tangent `(x*y/s, s, z*y/s)`, its second column the normalised cross
product of normal and tangent, its third column the normal. -/
theorem buildTBN_defined (n : Vec3 ℝ) (hn : Vec3.norm Real.sqrt n = 1)
    (hxz : 0 < n.x * n.x + n.z * n.z) :
    ∃ b : Vec3 ℝ,
      Vec3.normalized Real.sqrt
        (Vec3.cross n
          ⟨n.x * n.y / Real.sqrt (n.x * n.x + n.z * n.z), Real.sqrt (n.x * n.x + n.z * n.z),
            n.z * n.y / Real.sqrt (n.x * n.x + n.z * n.z)⟩) = some b ∧
      buildTBN Real.sqrt n
        = some !![n.x * n.y / Real.sqrt (n.x * n.x + n.z * n.z), b.x, n.x;
                  Real.sqrt (n.x * n.x + n.z * n.z), b.y, n.y;
                  n.z * n.y / Real.sqrt (n.x * n.x + n.z * n.z), b.z, n.z] := by
  obtain ⟨hs, htt, _⟩ := tangent_facts n hn hxz
  have ht := normalized_of_unit
    ⟨n.x * n.y / Real.sqrt (n.x * n.x + n.z * n.z), Real.sqrt (n.x * n.x + n.z * n.z),
      n.z * n.y / Real.sqrt (n.x * n.x + n.z * n.z)⟩
    (by simp only [Vec3.norm]; rw [htt]; exact Real.sqrt_one)
  obtain ⟨b, hb⟩ := normalized_total
    (Vec3.cross n
      ⟨n.x * n.y / Real.sqrt (n.x * n.x + n.z * n.z), Real.sqrt (n.x * n.x + n.z * n.z),
        n.z * n.y / Real.sqrt (n.x * n.x + n.z * n.z)⟩)
  refine ⟨b, hb, ?_⟩
  simp only [buildTBN, fdiv_of_ne _ hs, ht, hb, Option.bind_eq_bind, Option.some_bind,
    Option.pure_def]

/-- With non-zero texture width and height the perturbed normal is defined and has squared
length at most 1. -/
theorem perturbNormal_defined (TBN : Mat3 ℝ) (tex : Texture ℝ) (u v : ℝ)
    (hw : tex.width ≠ 0) (hh : tex.height ≠ 0) :
    ∃ r, perturbNormal Real.sqrt TBN tex u v = some r ∧ Vec3.dot r r ≤ 1 := by
  simp only [perturbNormal, fdiv_of_ne _ hw, fdiv_of_ne _ hh, Option.bind_eq_bind,
    Option.some_bind]
  obtain ⟨r, hr⟩ := normalized_total (Mat3.mulVec3 TBN
    ⟨-(0.2 * 0.1 * (Vec3.norm Real.sqrt (tex.getColor (u + 1 / tex.width) v)
        - Vec3.norm Real.sqrt (tex.getColor u v))),
     -(0.2 * 0.1 * (Vec3.norm Real.sqrt (tex.getColor u (v + 1 / tex.height))
        - Vec3.norm Real.sqrt (tex.getColor u v))), 1⟩)
  exact ⟨r, hr, normalized_dot_le_one _ _ hr⟩

/-- With a texture of constant colour the perturbed normal is the third column of the matrix,
when that column is a unit vector. -/
theorem perturbNormal_constant (t b n : Vec3 ℝ) (tex : Texture ℝ) (c : Vec3 ℝ) (u v : ℝ)
    (hw : tex.width ≠ 0) (hh : tex.height ≠ 0) (hconst : ∀ u v, tex.getColor u v = c)
    (hn : Vec3.norm Real.sqrt n = 1) :
    perturbNormal Real.sqrt !![t.x, b.x, n.x; t.y, b.y, n.y; t.z, b.z, n.z] tex u v
      = some n := by
  have hlocal : Mat3.mulVec3 !![t.x, b.x, n.x; t.y, b.y, n.y; t.z, b.z, n.z]
      ⟨-(0.2 * 0.1 * (Vec3.norm Real.sqrt c - Vec3.norm Real.sqrt c)),
       -(0.2 * 0.1 * (Vec3.norm Real.sqrt c - Vec3.norm Real.sqrt c)), 1⟩ = n := by
    simp [Mat3.mulVec3]
  simp only [perturbNormal, fdiv_of_ne _ hw, fdiv_of_ne _ hh, hconst, hlocal,
    normalized_of_unit _ hn, Option.bind_eq_bind, Option.some_bind]

/-- Without a texture the textured shader is the Phong shader, over every ordered field. -/
theorem texture_eq_phong {F : Type} [LinearOrderedField F] (sqrt : F → F)
    (payload : fragment_shader_payload F) (h : payload.texture = none) :
    texture_fragment_shader sqrt payload = phong_fragment_shader sqrt payload := by
  simp only [texture_fragment_shader, phong_fragment_shader, h]

/-- Over the reals the Phong shader returns a colour when the shaded point is at neither
light. -/
theorem phong_defined (payload : fragment_shader_payload ℝ)
    (h1 : payload.view_pos ≠ ⟨20, 20, 20⟩) (h2 : payload.view_pos ≠ ⟨-20, 20, 0⟩) :
    ∃ c, phong_fragment_shader Real.sqrt payload = some c := by
  obtain ⟨n, hn⟩ := normalized_total payload.normal
  obtain ⟨v, hv⟩ := normalized_total (Vec3.sub ⟨0, 0, 10⟩ payload.view_pos)
  obtain ⟨l1, hl1⟩ := normalized_total (Vec3.sub ⟨20, 20, 20⟩ payload.view_pos)
  obtain ⟨l2, hl2⟩ := normalized_total (Vec3.sub ⟨-20, 20, 0⟩ payload.view_pos)
  obtain ⟨g1, hg1⟩ := normalized_total (Vec3.add v l1)
  obtain ⟨g2, hg2⟩ := normalized_total (Vec3.add v l2)
  have hd1 : Vec3.dot (Vec3.sub ⟨20, 20, 20⟩ payload.view_pos)
      (Vec3.sub ⟨20, 20, 20⟩ payload.view_pos) ≠ 0 := by
    apply ne_of_gt
    apply dot_self_pos_of_ne
    intro h
    apply h1
    rcases hp : payload.view_pos with ⟨x, y, z⟩
    rw [hp] at h
    simp only [Vec3.sub, Vec3.mk.injEq] at h
    obtain ⟨hx, hy, hz⟩ := h
    congr <;> linarith
  have hd2 : Vec3.dot (Vec3.sub ⟨-20, 20, 0⟩ payload.view_pos)
      (Vec3.sub ⟨-20, 20, 0⟩ payload.view_pos) ≠ 0 := by
    apply ne_of_gt
    apply dot_self_pos_of_ne
    intro h
    apply h2
    rcases hp : payload.view_pos with ⟨x, y, z⟩
    rw [hp] at h
    simp only [Vec3.sub, Vec3.mk.injEq] at h
    obtain ⟨hx, hy, hz⟩ := h
    congr <;> linarith
  simp only [phong_fragment_shader, hn, hv, hl1, hl2, hg1, hg2, divScalar_of_ne _ hd1,
    divScalar_of_ne _ hd2, List.foldlM, Option.bind_eq_bind, Option.some_bind, Option.pure_def]
  exact ⟨_, rfl⟩

/-- Value computed by `DistributionGGX`: `a2 / MY_PI * denom * denom`, read left to right. -/
theorem DistributionGGX_value {F : Type} [Field F] (NdotH rough : F) :
    Material.DistributionGGX NdotH rough
      = (rough * rough) ^ 2 / Material.MY_PI
          * (NdotH * NdotH * ((rough * rough) ^ 2 - 1) + 1) ^ 2 := by
  simp only [Material.DistributionGGX]
  ring

/-- The integral of `|1 - 2*x|` over `[0, 1]` is `1/2`. -/
theorem integral_abs_one_sub_two_mul : ∫ x in (0 : ℝ)..1, |1 - 2 * x| = 1 / 2 := by
  have hint : ∀ a b : ℝ, IntervalIntegrable (fun x : ℝ => |1 - 2 * x|) MeasureTheory.volume a b := by
    intro a b
    apply Continuous.intervalIntegrable
    continuity
  have h1 : ∫ x in (0 : ℝ)..(1 / 2), |1 - 2 * x| = ∫ x in (0 : ℝ)..(1 / 2), (1 - 2 * x) := by
    apply intervalIntegral.integral_congr
    intro x hx
    rw [Set.uIcc_of_le (by norm_num)] at hx
    simp only
    rw [abs_of_nonneg]
    linarith [hx.2]
  have h2 : ∫ x in (1 / 2 : ℝ)..1, |1 - 2 * x| = ∫ x in (1 / 2 : ℝ)..1, (2 * x - 1) := by
    apply intervalIntegral.integral_congr
    intro x hx
    rw [Set.uIcc_of_le (by norm_num)] at hx
    simp only
    rw [abs_of_nonpos]
    · ring
    · linarith [hx.1]
  have hlin : ∀ a b : ℝ, IntervalIntegrable (fun x : ℝ => 2 * x) MeasureTheory.volume a b := by
    intro a b
    apply Continuous.intervalIntegrable
    continuity
  have e1 : ∫ x in (0 : ℝ)..(1 / 2), (1 - 2 * x) = 1 / 4 := by
    rw [intervalIntegral.integral_sub intervalIntegrable_const (hlin _ _),
      intervalIntegral.integral_const, intervalIntegral.integral_const_mul, integral_id]
    norm_num
  have e2 : ∫ x in (1 / 2 : ℝ)..1, (2 * x - 1) = 1 / 4 := by
    rw [intervalIntegral.integral_sub (hlin _ _) intervalIntegrable_const,
      intervalIntegral.integral_const, intervalIntegral.integral_const_mul, integral_id]
    norm_num
  rw [← intervalIntegral.integral_add_adjacent_intervals (hint 0 (1 / 2)) (hint (1 / 2) 1), h1, h2,
    e1, e2]
  norm_num

/-- For a Diffuse or PBR material and a unit normal, every pair of random numbers gives a
sample whose dot product with the normal is `|1 - 2*x1|`. -/
theorem sample_dot_normal (M_PI : ℝ) (m : Material ℝ) (wi N : Vec3 ℝ) (x_1 x_2 : ℝ)
    (hm : m.m_type = MaterialType.DIFFUSE ∨ m.m_type = MaterialType.PBR)
    (hN : Vec3.norm Real.sqrt N = 1) :
    ∃ s, Material.sample Real.sqrt Real.cos Real.sin M_PI m x_1 x_2 wi N = some s ∧
      Material.dotProduct s N = |1 - 2 * x_1| := by
  obtain ⟨C, hCC, hCN, hto⟩ := toWorld_frame N hN
  have hNN : Material.dotProduct N N = 1 := Real.sqrt_eq_one.mp hN
  obtain ⟨hBB, hBC, hBN⟩ := cross_frame C N hCC hNN hCN
  obtain ⟨_, hdot⟩ := frame_combination (Material.crossProduct C N) C N
    ⟨Real.sqrt (1 - |1 - 2 * x_1| * |1 - 2 * x_1|) * Real.cos (2 * M_PI * x_2),
     Real.sqrt (1 - |1 - 2 * x_1| * |1 - 2 * x_1|) * Real.sin (2 * M_PI * x_2),
     |1 - 2 * x_1|⟩ hBB hCC hNN hBC hBN hCN
  refine ⟨_, ?_, hdot⟩
  rcases hm with hm | hm <;> simp only [Material.sample, hm, hto]

/-- Over the reals, for a field of view strictly between 0 and 180 degrees, positive aspect and
positive `near ≠ far`, the projection matrix is defined and has these entries, where
`T = tan(fov * 0.5 * MY_PI / 180)`. -/
theorem get_projection_matrix_value (MY_PI fov aspect near far : ℝ)
    (hpi : 0 < MY_PI ∧ MY_PI ≤ Real.pi) (hfov : 0 < fov ∧ fov < 180) (hasp : 0 < aspect)
    (hnear : 0 < near) (hne : near ≠ far) :
    0 < Real.tan (fov * 0.5 * MY_PI / 180) ∧
    get_projection_matrix Real.tan MY_PI fov aspect near far
      = some !![-near / (aspect * (Real.tan (fov * 0.5 * MY_PI / 180) * near)), 0, 0, 0;
                0, -near / (Real.tan (fov * 0.5 * MY_PI / 180) * near), 0, 0;
                0, 0, -(near + far) / (far - near), -(2 * near * far) / (far - near);
                0, 0, 1, 0] := by
  have hT : 0 < Real.tan (fov * 0.5 * MY_PI / 180) := by
    apply Real.tan_pos_of_pos_of_lt_pi_div_two
    · have := mul_pos hfov.1 hpi.1
      linarith
    · have h1 : fov * MY_PI < 180 * Real.pi := by
        calc fov * MY_PI ≤ fov * Real.pi := mul_le_mul_of_nonneg_left hpi.2 hfov.1.le
          _ < 180 * Real.pi := mul_lt_mul_of_pos_right hfov.2 Real.pi_pos
      linarith
  refine ⟨hT, ?_⟩
  unfold get_projection_matrix
  generalize Real.tan (fov * 0.5 * MY_PI / 180) = T at hT ⊢
  have habs : |(-near)| = near := by rw [abs_neg, abs_of_pos hnear]
  have hr : aspect * (T * near) ≠ 0 := by positivity
  have ht : T * near ≠ 0 := by positivity
  have hnf : far - near ≠ 0 := sub_ne_zero.mpr (Ne.symm hne)
  have h1 : aspect * (T * near) - -(aspect * (T * near)) ≠ 0 := by
    have : 0 < aspect * (T * near) := by positivity
    linarith
  have h2 : T * near - -(T * near) ≠ 0 := by
    have : 0 < T * near := by positivity
    linarith
  have h3 : -near - -far ≠ 0 := by
    intro h
    apply hne
    linarith
  simp only [habs, fdiv_of_ne _ h1, fdiv_of_ne _ h2, fdiv_of_ne _ h3,
    Option.bind_eq_bind, Option.some_bind, Option.pure_def, mat4_mul]
  have h1' : aspect * (T * near) - -(aspect * (T * near)) = 2 * (aspect * (T * near)) := by
    ring
  have h2' : T * near - -(T * near) = 2 * (T * near) := by ring
  have h3' : -near - -far = far - near := by ring
  rw [h1', h2', h3']
  congr 1
  ext i j
  fin_cases i <;> fin_cases j <;> simp <;> field_simp <;>
    first | ring1 | exact Or.inl (by ring)

/-- Over the reals, the `Vector.hpp` normalisation of a unit vector is the vector. -/
theorem normalizedV_of_unit (a : Vec3 ℝ) (h : Vec3.norm Real.sqrt a = 1) :
    Vec3.normalizedV Real.sqrt a = some a := by
  simp [Vec3.normalizedV, h, Vec3.divScalar]

/-- Over the reals, the `Vector.hpp` normalisation of a non-zero vector is a unit vector. -/
theorem normalizedV_of_pos (a : Vec3 ℝ) (h : 0 < Vec3.dot a a) :
    ∃ H, Vec3.normalizedV Real.sqrt a = some H ∧ Material.dotProduct H H = 1 ∧
      H = ⟨a.x / Vec3.norm Real.sqrt a, a.y / Vec3.norm Real.sqrt a,
        a.z / Vec3.norm Real.sqrt a⟩ := by
  have hs : Vec3.norm Real.sqrt a ≠ 0 := (Real.sqrt_pos.mpr h).ne'
  have hss : Vec3.norm Real.sqrt a * Vec3.norm Real.sqrt a = Vec3.dot a a :=
    Real.mul_self_sqrt h.le
  refine ⟨_, divScalar_of_ne a hs, ?_, rfl⟩
  generalize Vec3.norm Real.sqrt a = L at hs hss
  simp only [Vec3.dot] at hss
  simp only [Material.dotProduct]
  field_simp
  linear_combination -hss

/-- The dot product of two real vectors of squared length 1 is at most 1. -/
theorem dotProduct_le_one (u v : Vec3 ℝ) (hu : Material.dotProduct u u = 1)
    (hv : Material.dotProduct v v = 1) : Material.dotProduct u v ≤ 1 := by
  simp only [Material.dotProduct] at *
  nlinarith [mul_self_nonneg (u.x - v.x), mul_self_nonneg (u.y - v.y),
    mul_self_nonneg (u.z - v.z)]

/-- The PBR arm of `Material::eval` for unit `wi`, `wo` above the surface, when the half vector
and both reciprocals of `Visibility` are defined. -/
theorem eval_pbr_unit (M_PI : ℝ) (m : Material ℝ) (wi wo N H : Vec3 ℝ)
    (hm : m.m_type = MaterialType.PBR)
    (hwi : Vec3.norm Real.sqrt wi = 1) (hwo : Vec3.norm Real.sqrt wo = 1)
    (hpos : 0 < Material.dotProduct N wo)
    (hH : Vec3.normalizedV Real.sqrt (Vec3.add wo (Vec3.neg wi)) = some H)
    (hdV : max (Material.dotProduct N (Vec3.neg wi)) 0
        * (1 - (m.m_roughness + 1) * (m.m_roughness + 1) * 0.125)
        + (m.m_roughness + 1) * (m.m_roughness + 1) * 0.125 ≠ 0)
    (hdL : max (Material.dotProduct N wo) 0
        * (1 - (m.m_roughness + 1) * (m.m_roughness + 1) * 0.125)
        + (m.m_roughness + 1) * (m.m_roughness + 1) * 0.125 ≠ 0) :
    Material.eval Real.sqrt M_PI m wi wo N
      = some (pbrColor m (max (Material.dotProduct N H) 0)
          (max (Material.dotProduct H (Vec3.neg wi)) 0)
          (1 / (max (Material.dotProduct N (Vec3.neg wi)) 0
              * (1 - (m.m_roughness + 1) * (m.m_roughness + 1) * 0.125)
              + (m.m_roughness + 1) * (m.m_roughness + 1) * 0.125)
            * (1 / (max (Material.dotProduct N wo) 0
              * (1 - (m.m_roughness + 1) * (m.m_roughness + 1) * 0.125)
              + (m.m_roughness + 1) * (m.m_roughness + 1) * 0.125))
            * 0.25)) := by
  have h2 : ¬ Material.dotProduct N wo ≤ 0 := not_le.mpr hpos
  simp only [Material.eval, if_neg h2, hm, normalizedV_of_unit _ hwi, normalizedV_of_unit _ hwo,
    hH, Material.Visibility, fdiv_of_ne _ hdV, fdiv_of_ne _ hdL, Option.bind_eq_bind,
    Option.some_bind, Option.pure_def, pbrColor]

/-- One colour channel of the PBR value: with albedo `a`, metallic `t` and clamped cosine `h`
in `[0, 1]`, the base reflectance `f0` lies in `[0, 1]`, the Fresnel term lies between `f0`
and 1, and the channel is non-negative. -/
theorem pbr_channel_bounds (a t h ndf vis P : ℝ) (ha : 0 ≤ a ∧ a ≤ 1) (ht : 0 ≤ t ∧ t ≤ 1)
    (hh : 0 ≤ h ∧ h ≤ 1) (hndf : 0 ≤ ndf) (hvis : 0 ≤ vis) (hP : 0 < P) :
    (0.04 + (a - 0.04) * t ≤ 0.04 + (a - 0.04) * t + (1 - (0.04 + (a - 0.04) * t)) * (1 - h) ^ 5 ∧
      0.04 + (a - 0.04) * t + (1 - (0.04 + (a - 0.04) * t)) * (1 - h) ^ 5 ≤ 1) ∧
    0 ≤ (1 - (0.04 + (a - 0.04) * t + (1 - (0.04 + (a - 0.04) * t)) * (1 - h) ^ 5)
          + (1 - (1 - (0.04 + (a - 0.04) * t + (1 - (0.04 + (a - 0.04) * t)) * (1 - h) ^ 5))) * t)
          * (a / P)
        + (0.04 + (a - 0.04) * t + (1 - (0.04 + (a - 0.04) * t)) * (1 - h) ^ 5) * ndf * vis := by
  have hp0 : 0 ≤ (1 - h) ^ 5 := pow_nonneg (by linarith [hh.2]) 5
  have hp1 : (1 - h) ^ 5 ≤ 1 := pow_le_one₀ (by linarith [hh.2]) (by linarith [hh.1])
  have hf0 : 0 ≤ 0.04 + (a - 0.04) * t := by nlinarith [mul_nonneg ha.1 ht.1]
  have hf1 : 0.04 + (a - 0.04) * t ≤ 1 := by
    nlinarith [mul_nonneg (sub_nonneg.mpr ha.2) ht.1, mul_nonneg ha.1 ht.1]
  generalize 0.04 + (a - 0.04) * t = f0 at hf0 hf1 ⊢
  generalize (1 - h) ^ 5 = q at hp0 hp1 ⊢
  have hfre0 : f0 ≤ f0 + (1 - f0) * q := by nlinarith [mul_nonneg (sub_nonneg.mpr hf1) hp0]
  have hfre1 : f0 + (1 - f0) * q ≤ 1 := by
    nlinarith [mul_nonneg (sub_nonneg.mpr hf1) (sub_nonneg.mpr hp1)]
  refine ⟨⟨hfre0, hfre1⟩, ?_⟩
  generalize f0 + (1 - f0) * q = fre at hfre0 hfre1 ⊢
  have hfre : 0 ≤ fre := le_trans hf0 hfre0
  have hkd : 0 ≤ 1 - fre + (1 - (1 - fre)) * t := by
    nlinarith [mul_nonneg hfre ht.1]
  have hdiff : 0 ≤ a / P := div_nonneg ha.1 hP.le
  have h1 := mul_nonneg hkd hdiff
  have h2 := mul_nonneg (mul_nonneg hfre hndf) hvis
  linarith

/-- A point different from a light position is at positive squared distance from it. -/
theorem light_distance_pos (L p : Vec3 ℝ) (h : p ≠ L) :
    0 < Vec3.dot (Vec3.sub L p) (Vec3.sub L p) := by
  apply dot_self_pos_of_ne
  intro h0
  apply h
  have hx : L.x - p.x = 0 := congrArg Vec3.x h0
  have hy : L.y - p.y = 0 := congrArg Vec3.y h0
  have hz : L.z - p.z = 0 := congrArg Vec3.z h0
  rcases p with ⟨a, b, c⟩
  rcases L with ⟨d, e, f⟩
  simp only at hx hy hz
  congr <;> linarith

/-- One colour channel of the Phong sum over the two lights: with a non-negative diffuse
coefficient `k` and positive squared distances it is at least `25.5`, and it is exactly `25.5`
when all four cosines are non-positive. -/
theorem phong_channel_floor (k d1 d2 a1 b1 a2 b2 : ℝ) (hk : 0 ≤ k) (hd1 : 0 < d1)
    (hd2 : 0 < d2) :
    25.5 ≤ (0 + (0.005 * 10 + k * (500 / d1) * max 0 a1
          + 0.7937 * (500 / d1) * (max 0 b1) ^ 150)
        + (0.005 * 10 + k * (500 / d2) * max 0 a2
          + 0.7937 * (500 / d2) * (max 0 b2) ^ 150)) * 255 ∧
    (a1 ≤ 0 → b1 ≤ 0 → a2 ≤ 0 → b2 ≤ 0 →
      (0 + (0.005 * 10 + k * (500 / d1) * max 0 a1
          + 0.7937 * (500 / d1) * (max 0 b1) ^ 150)
        + (0.005 * 10 + k * (500 / d2) * max 0 a2
          + 0.7937 * (500 / d2) * (max 0 b2) ^ 150)) * 255 = 25.5) := by
  constructor
  · have i1 : 0 ≤ 500 / d1 := by positivity
    have i2 : 0 ≤ 500 / d2 := by positivity
    have m1 : 0 ≤ max 0 a1 := le_max_left _ _
    have m2 : 0 ≤ max 0 a2 := le_max_left _ _
    have q1 : 0 ≤ (max 0 b1) ^ 150 := pow_nonneg (le_max_left _ _) _
    have q2 : 0 ≤ (max 0 b2) ^ 150 := pow_nonneg (le_max_left _ _) _
    have t1 : 0 ≤ k * (500 / d1) * max 0 a1 := mul_nonneg (mul_nonneg hk i1) m1
    have t2 : 0 ≤ k * (500 / d2) * max 0 a2 := mul_nonneg (mul_nonneg hk i2) m2
    have t3 : 0 ≤ 0.7937 * (500 / d1) * (max 0 b1) ^ 150 :=
      mul_nonneg (mul_nonneg (by norm_num) i1) q1
    have t4 : 0 ≤ 0.7937 * (500 / d2) * (max 0 b2) ^ 150 :=
      mul_nonneg (mul_nonneg (by norm_num) i2) q2
    linarith
  · intro ha1 hb1 ha2 hb2
    rw [max_eq_left ha1, max_eq_left hb1, max_eq_left ha2, max_eq_left hb2]
    norm_num

/-- Over the reals, normalising keeps a non-negative `y` component non-negative. -/
theorem normalized_y_nonneg (a u : Vec3 ℝ) (h : Vec3.normalized Real.sqrt a = some u)
    (hy : 0 ≤ a.y) : 0 ≤ u.y := by
  by_cases hpos : 0 < Vec3.dot a a
  · rw [normalized_of_pos a hpos] at h
    rw [← Option.some.inj h]
    exact div_nonneg hy (Real.sqrt_nonneg _)
  · simp only [Vec3.normalized, if_neg hpos] at h
    rw [← Option.some.inj h]
    exact hy

/-! ## Assignment 3: transform matrices -/

/-- C1: for a vertical field of view strictly between 0 and 180 degrees, a positive aspect and
positive `near`, `far` with `near ≠ far`, `get_projection_matrix` returns a matrix that maps the
eight frustum corners to the corners of the canonical cube after division by `w`: with
`t = tan(fov/2) * near` and `r = aspect * t`, the near corner `(±r, ±t, -near, 1)` goes to
`(±1, ±1, 1)` and the far corner `(±r*far/near, ±t*far/near, -far, 1)` goes to `(±1, ±1, -1)`,
so all eight images lie in the cube. The macro `MY_PI` is any positive value not above `π`. -/
theorem get_projection_matrix_frustum_corners (MY_PI fov aspect near far : ℝ)
    (hpi : 0 < MY_PI ∧ MY_PI ≤ Real.pi) (hfov : 0 < fov ∧ fov < 180) (hasp : 0 < aspect)
    (hnear : 0 < near) (hfar : 0 < far) (hne : near ≠ far) :
    ∃ M, get_projection_matrix Real.tan MY_PI fov aspect near far = some M ∧
      ∀ sx sy : ℝ, (sx = 1 ∨ sx = -1) → (sy = 1 ∨ sy = -1) →
        (perspectiveDivide (Matrix.mulVec M
            ![sx * (aspect * (Real.tan (fov / 2 * MY_PI / 180) * near)),
              sy * (Real.tan (fov / 2 * MY_PI / 180) * near), -near, 1])
          = some ⟨sx, sy, 1⟩ ∧
        perspectiveDivide (Matrix.mulVec M
            ![sx * (aspect * (Real.tan (fov / 2 * MY_PI / 180) * near)) * far / near,
              sy * (Real.tan (fov / 2 * MY_PI / 180) * near) * far / near, -far, 1])
          = some ⟨sx, sy, -1⟩) ∧
        inCanonicalCube (⟨sx, sy, 1⟩ : Vec3 ℝ) ∧ inCanonicalCube (⟨sx, sy, -1⟩ : Vec3 ℝ) := by
  have harg : fov / 2 * MY_PI / 180 = fov * 0.5 * MY_PI / 180 := by ring
  have hT : 0 < Real.tan (fov * 0.5 * MY_PI / 180) := by
    apply Real.tan_pos_of_pos_of_lt_pi_div_two
    · have := mul_pos hfov.1 hpi.1
      linarith
    · have h1 : fov * MY_PI < 180 * Real.pi := by
        calc fov * MY_PI ≤ fov * Real.pi := mul_le_mul_of_nonneg_left hpi.2 hfov.1.le
          _ < 180 * Real.pi := mul_lt_mul_of_pos_right hfov.2 Real.pi_pos
      linarith
  rw [harg]
  set T := Real.tan (fov * 0.5 * MY_PI / 180) with hTdef
  have habs : |(-near)| = near := by rw [abs_neg, abs_of_pos hnear]
  have h1 : aspect * (T * near) - -(aspect * (T * near)) ≠ 0 := by
    have : 0 < aspect * (T * near) := by positivity
    linarith
  have h2 : T * near - -(T * near) ≠ 0 := by
    have : 0 < T * near := by positivity
    linarith
  have h3 : -near - -far ≠ 0 := by
    intro h
    apply hne
    linarith
  have hr : aspect * (T * near) ≠ 0 := by positivity
  have ht : T * near ≠ 0 := by positivity
  have hn : near ≠ 0 := hnear.ne'
  have hf : far ≠ 0 := hfar.ne'
  have hnf : far - near ≠ 0 := sub_ne_zero.mpr (Ne.symm hne)
  have hM : get_projection_matrix Real.tan MY_PI fov aspect near far
      = some !![-near / (aspect * (T * near)), 0, 0, 0;
                0, -near / (T * near), 0, 0;
                0, 0, -(near + far) / (far - near), -(2 * near * far) / (far - near);
                0, 0, 1, 0] := by
    unfold get_projection_matrix
    simp only [← hTdef, habs, fdiv_of_ne _ h1, fdiv_of_ne _ h2, fdiv_of_ne _ h3,
      Option.bind_eq_bind, Option.some_bind, Option.pure_def, mat4_mul]
    have h1' : aspect * (T * near) - -(aspect * (T * near)) = 2 * (aspect * (T * near)) := by
      ring
    have h2' : T * near - -(T * near) = 2 * (T * near) := by ring
    have h3' : -near - -far = far - near := by ring
    rw [h1', h2', h3']
    congr 1
    ext i j
    fin_cases i <;> fin_cases j <;> simp <;> field_simp <;> first | ring1 | exact Or.inl (by ring)
  refine ⟨_, hM, ?_⟩
  intro sx sy hsx hsy
  refine ⟨?_, ?_⟩
  swap
  · rcases hsx with rfl | rfl <;> rcases hsy with rfl | rfl <;> norm_num [inCanonicalCube]
  simp only [mat4_mulVec, perspectiveDivide]
  constructor
  · simp
    refine ⟨hn, ?_, ?_, ?_⟩
    · field_simp
      ring
    · field_simp
      ring
    · field_simp
      ring
  · simp
    refine ⟨hf, ?_, ?_, ?_⟩
    · field_simp
      ring
    · field_simp
      ring
    · field_simp
      ring

/-- Instance of C1 on the call of `main`: a field of view of 45 degrees, aspect 1, near 0.1 and
far 50, with `MY_PI = 3.1415926`; the corner `(r, t, -near, 1)` goes to `(1, 1, 1)`. -/
theorem get_projection_matrix_frustum_corners_witness :
    ∃ M, get_projection_matrix Real.tan 3.1415926 45 1 0.1 50 = some M ∧
      perspectiveDivide (Matrix.mulVec M
          ![1 * (1 * (Real.tan (45 / 2 * 3.1415926 / 180) * 0.1)),
            1 * (Real.tan (45 / 2 * 3.1415926 / 180) * 0.1), -0.1, 1])
        = some ⟨1, 1, 1⟩ := by
  obtain ⟨M, hM, h⟩ := get_projection_matrix_frustum_corners 3.1415926 45 1 0.1 50
    ⟨by norm_num, le_of_lt (lt_trans (by norm_num) Real.pi_gt_d20)⟩
    ⟨by norm_num, by norm_num⟩ (by norm_num) (by norm_num) (by norm_num) (by norm_num)
  exact ⟨M, hM, (h 1 1 (Or.inl rfl) (Or.inl rfl)).1.1⟩

/-! ## Assignment 7: materials -/

/-- C2: for every material type and all `wi`, `wo`, `N`, `Material::Material.pdf` returns exactly 0 when
`dot(wo, N) ≤ 0`; otherwise it returns `1/(2*pi)` for Diffuse and PBR and 1 for Mirror; the
value does not depend on `wi`. -/
theorem pdf_values {F : Type} [LinearOrderedField F] (M_PI : F) (m : Material F)
    (wi wo N : Vec3 F) :
    (Material.dotProduct wo N ≤ 0 → Material.pdf M_PI m wi wo N = 0) ∧
    (0 < Material.dotProduct wo N →
      (m.m_type = MaterialType.DIFFUSE ∨ m.m_type = MaterialType.PBR →
        Material.pdf M_PI m wi wo N = 1 / (2 * M_PI)) ∧
      (m.m_type = MaterialType.MIRROR → Material.pdf M_PI m wi wo N = 1)) ∧
    (∀ wi2 : Vec3 F, Material.pdf M_PI m wi2 wo N = Material.pdf M_PI m wi wo N) := by
  refine ⟨?_, ?_, ?_⟩
  · intro h
    simp [Material.pdf, h]
  · intro h
    have h2 : ¬ Material.dotProduct wo N ≤ 0 := not_le.mpr h
    constructor
    · rintro (hm | hm) <;> simp only [Material.pdf, if_neg h2, hm] <;>
        rw [show (0.5 : F) = 1 / 2 by norm_num, div_div]
    · intro hm
      simp only [Material.pdf, if_neg h2, hm]
  · intro wi2
    rfl

/-- Instance of C2: below the surface a mirror has density 0; above it a diffuse material has
density `1/(2*M_PI)` and a mirror has density 1. -/
theorem pdf_values_witness :
    Material.pdf (22 / 7) sampleMirror ⟨1, 0, 0⟩ ⟨0, 0, -1⟩ ⟨0, 0, 1⟩ = 0 ∧
    Material.pdf (22 / 7) sampleDiffuse ⟨1, 0, 0⟩ ⟨0, 0, 1⟩ ⟨0, 0, 1⟩ = 1 / (2 * (22 / 7)) ∧
    Material.pdf (22 / 7) sampleMirror ⟨1, 0, 0⟩ ⟨0, 0, 1⟩ ⟨0, 0, 1⟩ = 1 :=
  ⟨(pdf_values (22 / 7) sampleMirror ⟨1, 0, 0⟩ ⟨0, 0, -1⟩ ⟨0, 0, 1⟩).1
      (by norm_num [Material.dotProduct]),
   ((pdf_values (22 / 7) sampleDiffuse ⟨1, 0, 0⟩ ⟨0, 0, 1⟩ ⟨0, 0, 1⟩).2.1
      (by norm_num [Material.dotProduct])).1 (Or.inl rfl),
   ((pdf_values (22 / 7) sampleMirror ⟨1, 0, 0⟩ ⟨0, 0, 1⟩ ⟨0, 0, 1⟩).2.1
      (by norm_num [Material.dotProduct])).2 rfl⟩

/-- C3: for every material type and every parameter setting, `Material::Material.eval` returns the black
colour `(0, 0, 0)` whenever `dot(wo, N) ≤ 0`. -/
theorem eval_black_below_surface {F : Type} [LinearOrderedField F] (sqrt : F → F) (M_PI : F)
    (m : Material F) (wi wo N : Vec3 F) (h : Material.dotProduct wo N ≤ 0) :
    Material.eval sqrt M_PI m wi wo N = some ⟨0, 0, 0⟩ := by
  have h2 : Material.dotProduct N wo ≤ 0 := by
    have hc : Material.dotProduct N wo = Material.dotProduct wo N := by
      simp only [Material.dotProduct]
      ring
    rw [hc]
    exact h
  simp [Material.eval, h2]

/-- Instance of C3: a PBR material with `wo` below the surface. -/
theorem eval_black_below_surface_witness :
    Material.eval (fun x => x) (22 / 7) samplePBR ⟨1, 0, 0⟩ ⟨0, 0, -1⟩ ⟨0, 0, 1⟩
      = some ⟨0, 0, 0⟩ :=
  eval_black_below_surface (fun x => x) (22 / 7) samplePBR ⟨1, 0, 0⟩ ⟨0, 0, -1⟩ ⟨0, 0, 1⟩
    (by norm_num [Material.dotProduct])

/-- C4: for a Mirror material, a unit normal `N` and a unit incident direction `wi`, the sampled
direction `s = Material.sample(wi, N)` satisfies `dot(s, N) = dot(-wi, N)` and `|s| = 1`. -/
theorem mirror_sample_reflects (M_PI : ℝ) (m : Material ℝ) (x_1 x_2 : ℝ) (wi N : Vec3 ℝ)
    (hm : m.m_type = MaterialType.MIRROR)
    (hN : Vec3.norm Real.sqrt N = 1) (hwi : Vec3.norm Real.sqrt wi = 1) :
    ∃ s, Material.sample Real.sqrt Real.cos Real.sin M_PI m x_1 x_2 wi N = some s ∧
      Material.dotProduct s N = Material.dotProduct (Vec3.neg wi) N ∧ Vec3.norm Real.sqrt s = 1 := by
  have hN2 : N.x * N.x + N.y * N.y + N.z * N.z = 1 := Real.sqrt_eq_one.mp hN
  have hwi2 : wi.x * wi.x + wi.y * wi.y + wi.z * wi.z = 1 := Real.sqrt_eq_one.mp hwi
  refine ⟨Material.reflect wi N, by simp [Material.sample, hm], ?_, ?_⟩
  · simp only [Material.reflect, Material.dotProduct, Vec3.sub, Vec3.smul, Vec3.neg]
    linear_combination
      (-2 * (wi.x * N.x + wi.y * N.y + wi.z * N.z)) * hN2
  · apply Real.sqrt_eq_one.mpr
    simp only [Material.reflect, Material.dotProduct, Vec3.sub, Vec3.smul, Vec3.dot]
    linear_combination
      hwi2 + 4 * (wi.x * N.x + wi.y * N.y + wi.z * N.z) ^ 2 * hN2

/-- Instance of C4: the direction `(0, 0, -1)` hitting a mirror with normal `(0, 0, 1)`. -/
theorem mirror_sample_reflects_witness :
    ∃ s, Material.sample Real.sqrt Real.cos Real.sin Real.pi
        ⟨MaterialType.MIRROR, ⟨0, 0, 0⟩, 1, ⟨1, 1, 1⟩, ⟨0, 0, 0⟩, 0, ⟨1, 1, 1⟩, 0, 1⟩
        0 0 ⟨0, 0, -1⟩ ⟨0, 0, 1⟩ = some s ∧
      Material.dotProduct s ⟨0, 0, 1⟩ = Material.dotProduct (Vec3.neg ⟨0, 0, -1⟩) ⟨0, 0, 1⟩ ∧
      Vec3.norm Real.sqrt s = 1 :=
  mirror_sample_reflects Real.pi _ 0 0 ⟨0, 0, -1⟩ ⟨0, 0, 1⟩ rfl
    (by simp [Vec3.norm, Vec3.dot]) (by simp [Vec3.norm, Vec3.dot])

/-- C5: for a Diffuse material and all `wi`, `wo`, `N` with `dot(wo, N) > 0`, `Material.eval` equals
`Kd / pi` componentwise, whatever `wi`, `wo` and `N` are; with `Kd = (pi, pi, pi)` it returns
`(1, 1, 1)`. -/
theorem diffuse_eval_is_Kd_over_pi (sqrt : ℝ → ℝ) (m : Material ℝ) (wi wo N : Vec3 ℝ)
    (hm : m.m_type = MaterialType.DIFFUSE) (h : 0 < Material.dotProduct wo N) :
    Material.eval sqrt Real.pi m wi wo N
      = some ⟨m.Kd.x / Real.pi, m.Kd.y / Real.pi, m.Kd.z / Real.pi⟩ ∧
    (m.Kd = ⟨Real.pi, Real.pi, Real.pi⟩ → Material.eval sqrt Real.pi m wi wo N = some ⟨1, 1, 1⟩) := by
  have h2 : ¬ Material.dotProduct N wo ≤ 0 := by
    have hc : Material.dotProduct N wo = Material.dotProduct wo N := by
      simp only [Material.dotProduct]
      ring
    rw [hc]
    exact not_le.mpr h
  have he : Material.eval sqrt Real.pi m wi wo N
      = some ⟨m.Kd.x / Real.pi, m.Kd.y / Real.pi, m.Kd.z / Real.pi⟩ := by
    simp [Material.eval, h2, hm, Vec3.divConst]
  refine ⟨he, ?_⟩
  intro hK
  rw [he, hK]
  simp [Real.pi_ne_zero]

/-- Instance of C5: `Kd = (pi, pi, pi)` with `wo` along the normal gives `(1, 1, 1)`. -/
theorem diffuse_eval_is_Kd_over_pi_witness :
    Material.eval Real.sqrt Real.pi
        ⟨MaterialType.DIFFUSE, ⟨0, 0, 0⟩, 1, ⟨Real.pi, Real.pi, Real.pi⟩, ⟨0, 0, 0⟩, 0,
          ⟨1, 1, 1⟩, 0, 1⟩
        ⟨0, 0, -1⟩ ⟨0, 0, 1⟩ ⟨0, 0, 1⟩ = some ⟨1, 1, 1⟩ :=
  (diffuse_eval_is_Kd_over_pi Real.sqrt _ ⟨0, 0, -1⟩ ⟨0, 0, 1⟩ ⟨0, 0, 1⟩ rfl
    (by simp [Material.dotProduct])).2 rfl

/-- C6: for a Diffuse or PBR material, a unit normal `N` and random numbers `x1`, `x2` in
`[0, 1]`, `toWorld` divides by no zero and combines its argument with an orthonormal basis
`(B, C, N)`; the sampled direction `s = toWorld((r cos phi, r sin phi, z), N)` with
`z = |1 - 2*x1|`, `r = sqrt(1 - z^2)`, `phi = 2*pi*x2` has `|s| = 1` and `dot(s, N) = z ≥ 0`. -/
theorem hemisphere_sample_on_unit_hemisphere (M_PI : ℝ) (m : Material ℝ) (x_1 x_2 : ℝ)
    (wi N : Vec3 ℝ)
    (hm : m.m_type = MaterialType.DIFFUSE ∨ m.m_type = MaterialType.PBR)
    (hx1 : 0 ≤ x_1 ∧ x_1 ≤ 1) (_hx2 : 0 ≤ x_2 ∧ x_2 ≤ 1)
    (hN : Vec3.norm Real.sqrt N = 1) :
    (∃ B C : Vec3 ℝ, orthonormalFrame B C N ∧
      ∀ a : Vec3 ℝ, Material.toWorld Real.sqrt a N
        = some (Vec3.add (Vec3.add (Vec3.smul a.x B) (Vec3.smul a.y C)) (Vec3.smul a.z N))) ∧
    ∃ s : Vec3 ℝ,
      Material.sample Real.sqrt Real.cos Real.sin M_PI m x_1 x_2 wi N = some s ∧
      Material.toWorld Real.sqrt
        ⟨Real.sqrt (1 - |1 - 2 * x_1| * |1 - 2 * x_1|) * Real.cos (2 * M_PI * x_2),
         Real.sqrt (1 - |1 - 2 * x_1| * |1 - 2 * x_1|) * Real.sin (2 * M_PI * x_2),
         |1 - 2 * x_1|⟩ N = some s ∧
      Vec3.norm Real.sqrt s = 1 ∧
      Material.dotProduct s N = |1 - 2 * x_1| ∧ 0 ≤ |1 - 2 * x_1| := by
  obtain ⟨C, hCC, hCN, hto⟩ := toWorld_frame N hN
  have hNN : Material.dotProduct N N = 1 := Real.sqrt_eq_one.mp hN
  obtain ⟨hBB, hBC, hBN⟩ := cross_frame C N hCC hNN hCN
  refine ⟨⟨Material.crossProduct C N, C, ⟨hBB, hCC, hNN, hBC, hBN, hCN⟩, hto⟩, ?_⟩
  have hz0 : 0 ≤ |1 - 2 * x_1| := abs_nonneg _
  have hz1 : |1 - 2 * x_1| ≤ 1 := abs_le.mpr ⟨by linarith [hx1.2], by linarith [hx1.1]⟩
  have hr : 0 ≤ 1 - |1 - 2 * x_1| * |1 - 2 * x_1| := by nlinarith
  have hrr := Real.mul_self_sqrt hr
  have hcs := Real.sin_sq_add_cos_sq (2 * M_PI * x_2)
  have hsample : Material.sample Real.sqrt Real.cos Real.sin M_PI m x_1 x_2 wi N
      = Material.toWorld Real.sqrt
        ⟨Real.sqrt (1 - |1 - 2 * x_1| * |1 - 2 * x_1|) * Real.cos (2 * M_PI * x_2),
         Real.sqrt (1 - |1 - 2 * x_1| * |1 - 2 * x_1|) * Real.sin (2 * M_PI * x_2),
         |1 - 2 * x_1|⟩ N := by
    rcases hm with hm | hm <;> simp [Material.sample, hm]
  obtain ⟨hlen, hdot⟩ := frame_combination (Material.crossProduct C N) C N
    ⟨Real.sqrt (1 - |1 - 2 * x_1| * |1 - 2 * x_1|) * Real.cos (2 * M_PI * x_2),
     Real.sqrt (1 - |1 - 2 * x_1| * |1 - 2 * x_1|) * Real.sin (2 * M_PI * x_2),
     |1 - 2 * x_1|⟩ hBB hCC hNN hBC hBN hCN
  refine ⟨_, hsample.trans (hto _), hto _, ?_, hdot, hz0⟩
  apply Real.sqrt_eq_one.mpr
  rw [hlen]
  simp only
  generalize Real.sqrt (1 - |1 - 2 * x_1| * |1 - 2 * x_1|) = r at hrr
  linear_combination (r * r) * hcs + hrr

/-- Instance of C6: a diffuse material, the normal `(0, 0, 1)` and `x1 = x2 = 1/4`. -/
theorem hemisphere_sample_on_unit_hemisphere_witness :
    ∃ s : Vec3 ℝ,
      Material.sample Real.sqrt Real.cos Real.sin Real.pi
        ⟨MaterialType.DIFFUSE, ⟨0, 0, 0⟩, 1, ⟨1, 1, 1⟩, ⟨0, 0, 0⟩, 0, ⟨1, 1, 1⟩, 0, 1⟩
        (1 / 4) (1 / 4) ⟨0, 0, -1⟩ ⟨0, 0, 1⟩ = some s ∧
      Vec3.norm Real.sqrt s = 1 ∧
      Material.dotProduct s ⟨0, 0, 1⟩ = |1 - 2 * (1 / 4 : ℝ)| := by
  obtain ⟨s, hs, _, hlen, hdot, _⟩ :=
    (hemisphere_sample_on_unit_hemisphere Real.pi
      ⟨MaterialType.DIFFUSE, ⟨0, 0, 0⟩, 1, ⟨1, 1, 1⟩, ⟨0, 0, 0⟩, 0, ⟨1, 1, 1⟩, 0, 1⟩
      (1 / 4) (1 / 4) ⟨0, 0, -1⟩ ⟨0, 0, 1⟩ (Or.inl rfl)
      ⟨by norm_num, by norm_num⟩ ⟨by norm_num, by norm_num⟩
      (by simp [Vec3.norm, Vec3.dot])).2
  exact ⟨s, hs, hlen, hdot⟩

/-! ## Assignment 3: fragment shaders and remaining matrices -/

/-- C7 fails as stated: on the unit normal `(0, 1, 0)` with a constant texture,
`bump_fragment_shader` divides by `sqrt(x*x + z*z) = 0` and has no result, so it does not
return 255 times the normal for every unit normal. -/
theorem bump_fragment_shader_vertical_normal_undefined :
    bump_fragment_shader Real.sqrt (verticalNormalPayload ℝ) = none ∧
    ¬ (∀ (payload : fragment_shader_payload ℝ) (tex : Texture ℝ) (c : Vec3 ℝ),
        payload.texture = some tex → (∀ u v, tex.getColor u v = c) →
        Vec3.norm Real.sqrt payload.normal = 1 →
        bump_fragment_shader Real.sqrt payload = some (Vec3.mulScalar payload.normal 255)) := by
  have hn : Vec3.norm Real.sqrt (verticalNormalPayload ℝ).normal = 1 := by
    simp [verticalNormalPayload, Vec3.norm, Vec3.dot]
  have hnone : bump_fragment_shader Real.sqrt (verticalNormalPayload ℝ) = none := by
    simp only [bump_fragment_shader, normalized_of_unit _ hn, Option.bind_eq_bind,
      Option.some_bind]
    simp [verticalNormalPayload, buildTBN, fdiv]
  refine ⟨hnone, ?_⟩
  intro h
  have h2 := h (verticalNormalPayload ℝ) ⟨1, 1, fun _ _ => ⟨0, 0, 0⟩⟩ ⟨0, 0, 0⟩ rfl
    (fun _ _ => rfl) hn
  rw [hnone] at h2
  exact Option.noConfusion h2

/-- C7, amended: for a payload whose normal `n = (x, y, z)` is a unit vector with
`x*x + z*z > 0` and whose texture has non-zero width and height and returns the same colour
at every `(u, v)`, `bump_fragment_shader` returns the input normal scaled by 255. -/
theorem bump_fragment_shader_constant_texture (payload : fragment_shader_payload ℝ)
    (tex : Texture ℝ) (c : Vec3 ℝ)
    (htex : payload.texture = some tex) (hw : tex.width ≠ 0) (hh : tex.height ≠ 0)
    (hconst : ∀ u v, tex.getColor u v = c)
    (hn : Vec3.norm Real.sqrt payload.normal = 1)
    (hxz : 0 < payload.normal.x * payload.normal.x + payload.normal.z * payload.normal.z) :
    bump_fragment_shader Real.sqrt payload = some (Vec3.mulScalar payload.normal 255) := by
  have hs : Real.sqrt (payload.normal.x * payload.normal.x
      + payload.normal.z * payload.normal.z) ≠ 0 := (Real.sqrt_pos.mpr hxz).ne'
  obtain ⟨t, ht⟩ := normalized_total
    ⟨payload.normal.x * payload.normal.y
        / Real.sqrt (payload.normal.x * payload.normal.x + payload.normal.z * payload.normal.z),
      Real.sqrt (payload.normal.x * payload.normal.x + payload.normal.z * payload.normal.z),
      payload.normal.z * payload.normal.y
        / Real.sqrt (payload.normal.x * payload.normal.x + payload.normal.z * payload.normal.z)⟩
  obtain ⟨b, hb⟩ := normalized_total (Vec3.cross payload.normal t)
  have hlocal : Mat3.mulVec3
      !![t.x, b.x, payload.normal.x; t.y, b.y, payload.normal.y; t.z, b.z, payload.normal.z]
      ⟨-(0.2 * 0.1 * (Vec3.norm Real.sqrt c - Vec3.norm Real.sqrt c)),
       -(0.2 * 0.1 * (Vec3.norm Real.sqrt c - Vec3.norm Real.sqrt c)), 1⟩
      = payload.normal := by
    simp [Mat3.mulVec3]
  simp only [bump_fragment_shader, buildTBN, perturbNormal, normalized_of_unit _ hn, htex,
    fdiv_of_ne _ hs, fdiv_of_ne _ hw, fdiv_of_ne _ hh, ht, hb, hconst, hlocal,
    Option.bind_eq_bind, Option.some_bind, Option.pure_def]

/-- Instance of the amended C7: the normal `(0, 0, 1)` with a constant texture is returned as
`(0, 0, 255)`. -/
theorem bump_fragment_shader_constant_texture_witness :
    bump_fragment_shader Real.sqrt (frontNormalPayload ℝ)
      = some (Vec3.mulScalar (frontNormalPayload ℝ).normal 255) :=
  bump_fragment_shader_constant_texture (frontNormalPayload ℝ) ⟨1, 1, fun _ _ => ⟨1, 2, 3⟩⟩
    ⟨1, 2, 3⟩ rfl one_ne_zero one_ne_zero (fun _ _ => rfl)
    (by simp [frontNormalPayload, Vec3.norm, Vec3.dot])
    (by simp [frontNormalPayload])

/-- C8: for a payload with a non-zero normal `n`, `normal_fragment_shader` returns
`127.5 * (n/|n| + (1, 1, 1))`, every component of which lies in `[0, 255]`; on the normal
`(0, 0, 1)` it returns `(127.5, 127.5, 255)`. -/
theorem normal_fragment_shader_colour (payload : fragment_shader_payload ℝ)
    (hn : payload.normal ≠ ⟨0, 0, 0⟩) :
    normal_fragment_shader Real.sqrt payload
      = some ⟨127.5 * (payload.normal.x / Vec3.norm Real.sqrt payload.normal + 1),
              127.5 * (payload.normal.y / Vec3.norm Real.sqrt payload.normal + 1),
              127.5 * (payload.normal.z / Vec3.norm Real.sqrt payload.normal + 1)⟩ ∧
    ((0 ≤ 127.5 * (payload.normal.x / Vec3.norm Real.sqrt payload.normal + 1) ∧
        127.5 * (payload.normal.x / Vec3.norm Real.sqrt payload.normal + 1) ≤ 255) ∧
     (0 ≤ 127.5 * (payload.normal.y / Vec3.norm Real.sqrt payload.normal + 1) ∧
        127.5 * (payload.normal.y / Vec3.norm Real.sqrt payload.normal + 1) ≤ 255) ∧
     (0 ≤ 127.5 * (payload.normal.z / Vec3.norm Real.sqrt payload.normal + 1) ∧
        127.5 * (payload.normal.z / Vec3.norm Real.sqrt payload.normal + 1) ≤ 255)) ∧
    (payload.normal = ⟨0, 0, 1⟩ →
      normal_fragment_shader Real.sqrt payload = some ⟨127.5, 127.5, 255⟩) := by
  have hpos := dot_self_pos_of_ne payload.normal hn
  have hL : 0 < Vec3.norm Real.sqrt payload.normal := Real.sqrt_pos.mpr hpos
  have hval : normal_fragment_shader Real.sqrt payload
      = some ⟨127.5 * (payload.normal.x / Vec3.norm Real.sqrt payload.normal + 1),
              127.5 * (payload.normal.y / Vec3.norm Real.sqrt payload.normal + 1),
              127.5 * (payload.normal.z / Vec3.norm Real.sqrt payload.normal + 1)⟩ := by
    simp only [normal_fragment_shader, normalized_of_pos _ hpos, Option.bind_eq_bind,
      Option.some_bind, Option.pure_def, Vec3.divConst, Vec3.add]
    congr 2 <;> ring
  refine ⟨hval, ⟨?_, ?_, ?_⟩, ?_⟩
  · apply channel_bounds _ _ hL
    apply Real.abs_le_sqrt
    simp only [Vec3.dot]
    nlinarith [mul_self_nonneg payload.normal.y, mul_self_nonneg payload.normal.z]
  · apply channel_bounds _ _ hL
    apply Real.abs_le_sqrt
    simp only [Vec3.dot]
    nlinarith [mul_self_nonneg payload.normal.x, mul_self_nonneg payload.normal.z]
  · apply channel_bounds _ _ hL
    apply Real.abs_le_sqrt
    simp only [Vec3.dot]
    nlinarith [mul_self_nonneg payload.normal.x, mul_self_nonneg payload.normal.y]
  · intro h
    rw [hval, h]
    simp [Vec3.norm, Vec3.dot]
    norm_num

/-- Instance of C8: the payload with normal `(0, 0, 1)` is shaded `(127.5, 127.5, 255)`. -/
theorem normal_fragment_shader_colour_witness :
    normal_fragment_shader Real.sqrt (frontNormalPayload ℝ) = some ⟨127.5, 127.5, 255⟩ :=
  (normal_fragment_shader_colour (frontNormalPayload ℝ)
    (by simp [frontNormalPayload])).2.2 rfl

/-- C9: for every angle `theta` in degrees, `get_model_matrix theta` has as upper-left block
2.5 times the rotation about the y axis by `theta` (converted to radians with `MY_PI`), its
last row and last column are `(0, 0, 0, 1)`, it maps `(0, 1, 0, 0)` to `(0, 2.5, 0, 0)`, and it
multiplies the Euclidean length of every direction vector by exactly 2.5. -/
theorem get_model_matrix_scaled_rotation (MY_PI theta : ℝ) :
    Matrix.submatrix (get_model_matrix Real.cos Real.sin MY_PI theta) Fin.castSucc Fin.castSucc
      = (2.5 : ℝ) • rotationY Real.cos Real.sin (theta * MY_PI / 180) ∧
    get_model_matrix Real.cos Real.sin MY_PI theta 3 = ![0, 0, 0, 1] ∧
    (fun i => get_model_matrix Real.cos Real.sin MY_PI theta i 3) = ![0, 0, 0, 1] ∧
    Matrix.mulVec (get_model_matrix Real.cos Real.sin MY_PI theta) ![0, 1, 0, 0]
      = ![0, 2.5, 0, 0] ∧
    ∀ v : Vec3 ℝ,
      Matrix.mulVec (get_model_matrix Real.cos Real.sin MY_PI theta) ![v.x, v.y, v.z, 0] 3 = 0 ∧
      Vec3.norm Real.sqrt
          (Vec4.head3 (Matrix.mulVec (get_model_matrix Real.cos Real.sin MY_PI theta)
            ![v.x, v.y, v.z, 0]))
        = 2.5 * Vec3.norm Real.sqrt v := by
  have h2 : Fin.castSucc (2 : Fin 3) = (2 : Fin 4) := rfl
  simp only [get_model_matrix_entries, mat4_mulVec]
  refine ⟨?_, ?_, ?_, ?_, ?_⟩
  · ext i j
    fin_cases i <;> fin_cases j <;> simp [rotationY, h2, mul_comm]
  · ext j
    fin_cases j <;> simp <;> rfl
  · ext i
    fin_cases i <;> simp
  · simp
  · intro v
    constructor
    · simp
    · have hcs := Real.sin_sq_add_cos_sq (theta * MY_PI / 180)
      have key : ∀ q : ℝ, Real.sqrt (6.25 * q) = 2.5 * Real.sqrt q := by
        intro q
        rw [show (6.25 : ℝ) = 2.5 * 2.5 by norm_num, Real.sqrt_mul (by norm_num),
          Real.sqrt_mul_self (by norm_num)]
      simp only [Vec3.norm, Vec3.dot, Vec4.head3]
      rw [← key]
      congr 1
      simp
      linear_combination
        (6.25 * v.x * v.x + 6.25 * v.z * v.z) * hcs

/-- C10: for every eye position `e`, `get_view_matrix e` is a pure translation: its upper-left
three by three block is the identity, it maps every homogeneous point `(p, 1)` to `(p - e, 1)`,
and it maps the eye `(e, 1)` to the origin `(0, 0, 0, 1)`. -/
theorem get_view_matrix_pure_translation {F : Type} [CommRing F] (e p : Vec3 F) :
    Matrix.submatrix (get_view_matrix e) Fin.castSucc Fin.castSucc = (1 : Mat3 F) ∧
    Matrix.mulVec (get_view_matrix e) ![p.x, p.y, p.z, 1]
      = ![p.x - e.x, p.y - e.y, p.z - e.z, 1] ∧
    Matrix.mulVec (get_view_matrix e) ![e.x, e.y, e.z, 1] = ![0, 0, 0, 1] := by
  have h2 : Fin.castSucc (2 : Fin 3) = (2 : Fin 4) := rfl
  have hM : get_view_matrix e
      = !![1, 0, 0, -e.x; 0, 1, 0, -e.y; 0, 0, 1, -e.z; 0, 0, 0, 1] := by
    simp [get_view_matrix]
  rw [hM]
  refine ⟨?_, ?_, ?_⟩
  · ext i j
    fin_cases i <;> fin_cases j <;> simp [h2] <;> rfl
  · ext i
    fin_cases i <;> simp [Matrix.mulVec, Matrix.dotProduct, Fin.sum_univ_four] <;> ring
  · ext i
    fin_cases i <;> simp [Matrix.mulVec, Matrix.dotProduct, Fin.sum_univ_four]

/-! ## Second group of claims: shaders, GGX term, sampler mean, tangent frame, PBR, depth -/

/-- C11: for a payload with no texture bound, `texture_fragment_shader` uses the base colour of
the payload as `kd` and returns exactly what `phong_fragment_shader` returns on that payload;
when the shaded point is at neither light, that common result is a colour. -/
theorem texture_fragment_shader_without_texture (payload : fragment_shader_payload ℝ)
    (h : payload.texture = none) :
    texture_fragment_shader Real.sqrt payload = phong_fragment_shader Real.sqrt payload ∧
    (payload.view_pos ≠ ⟨20, 20, 20⟩ → payload.view_pos ≠ ⟨-20, 20, 0⟩ →
      ∃ c, texture_fragment_shader Real.sqrt payload = some c ∧
        phong_fragment_shader Real.sqrt payload = some c) := by
  have heq := texture_eq_phong Real.sqrt payload h
  refine ⟨heq, ?_⟩
  intro h1 h2
  obtain ⟨c, hc⟩ := phong_defined payload h1 h2
  exact ⟨c, heq.trans hc, hc⟩

/-- Instance of C11: a payload at the origin without a texture. -/
theorem texture_fragment_shader_without_texture_witness :
    texture_fragment_shader Real.sqrt (untexturedPayload ℝ)
      = phong_fragment_shader Real.sqrt (untexturedPayload ℝ) ∧
    ∃ c, phong_fragment_shader Real.sqrt (untexturedPayload ℝ) = some c := by
  obtain ⟨heq, hdef⟩ := texture_fragment_shader_without_texture (untexturedPayload ℝ) rfl
  obtain ⟨c, _, hc⟩ := hdef (by simp [untexturedPayload]) (by simp [untexturedPayload])
  exact ⟨heq, c, hc⟩

/-- C12 fails as stated: at `NdotH = 0` and `roughness = 1/2` (so `a = 1/4` and `denom = 1`)
`DistributionGGX` returns `a^2 / MY_PI = (1/16) / MY_PI`, not `a^4 / (MY_PI * denom^2)
= (1/256) / MY_PI`. -/
theorem DistributionGGX_not_fourth_power :
    Material.DistributionGGX (0 : ℚ) (1 / 2) = (1 / 16) / Material.MY_PI ∧
    Material.DistributionGGX (0 : ℚ) (1 / 2)
      ≠ ((1 / 2 : ℚ) * (1 / 2)) ^ 4
          / (Material.MY_PI * (0 * 0 * (((1 / 2 : ℚ) * (1 / 2)) ^ 2 - 1) + 1) ^ 2) := by
  constructor
  · norm_num [Material.DistributionGGX, Material.MY_PI]
  · norm_num [Material.DistributionGGX, Material.MY_PI]

/-- C12, amended: with `a = roughness^2` and `denom = NdotH^2 * (a^2 - 1) + 1`, whenever
`denom = 1` the value of `DistributionGGX` is `a^2 / MY_PI = a^2 / (MY_PI * denom^2)`: the
numerator is `a^2`, not `a^4`. -/
theorem DistributionGGX_unit_denominator {F : Type} [Field F] (NdotH rough : F)
    (hdenom : NdotH * NdotH * ((rough * rough) ^ 2 - 1) + 1 = 1) :
    Material.DistributionGGX NdotH rough = (rough * rough) ^ 2 / Material.MY_PI ∧
    Material.DistributionGGX NdotH rough
      = (rough * rough) ^ 2
          / (Material.MY_PI * (NdotH * NdotH * ((rough * rough) ^ 2 - 1) + 1) ^ 2) := by
  rw [DistributionGGX_value, hdenom]
  constructor <;> simp

/-- Instance of the amended C12 at `NdotH = 0`, `roughness = 1/2`. -/
theorem DistributionGGX_unit_denominator_witness :
    Material.DistributionGGX (0 : ℚ) (1 / 2) = ((1 / 2 : ℚ) * (1 / 2)) ^ 2 / Material.MY_PI :=
  (DistributionGGX_unit_denominator (0 : ℚ) (1 / 2) (by norm_num)).1

/-- C13 fails as stated: the payload with the unit normal `(0, 0, -1)` and a bound constant
texture is shaded `(0, 0, -255)`, whose last component is below 0. -/
theorem bump_fragment_shader_negative_channel :
    Vec3.norm Real.sqrt (backNormalPayload ℝ).normal = 1 ∧
    (backNormalPayload ℝ).texture.isSome = true ∧
    bump_fragment_shader Real.sqrt (backNormalPayload ℝ) = some ⟨0, 0, -255⟩ ∧
    ¬ (0 ≤ (-255 : ℝ)) := by
  have hn : Vec3.norm Real.sqrt (backNormalPayload ℝ).normal = 1 := by
    simp [backNormalPayload, Vec3.norm, Vec3.dot]
  have hxz : 0 < (backNormalPayload ℝ).normal.x * (backNormalPayload ℝ).normal.x
      + (backNormalPayload ℝ).normal.z * (backNormalPayload ℝ).normal.z := by
    simp [backNormalPayload]
  obtain ⟨b, _, hTBN⟩ := buildTBN_defined _ hn hxz
  have hp := perturbNormal_constant
    ⟨(backNormalPayload ℝ).normal.x * (backNormalPayload ℝ).normal.y
        / Real.sqrt ((backNormalPayload ℝ).normal.x * (backNormalPayload ℝ).normal.x
          + (backNormalPayload ℝ).normal.z * (backNormalPayload ℝ).normal.z),
      Real.sqrt ((backNormalPayload ℝ).normal.x * (backNormalPayload ℝ).normal.x
          + (backNormalPayload ℝ).normal.z * (backNormalPayload ℝ).normal.z),
      (backNormalPayload ℝ).normal.z * (backNormalPayload ℝ).normal.y
        / Real.sqrt ((backNormalPayload ℝ).normal.x * (backNormalPayload ℝ).normal.x
          + (backNormalPayload ℝ).normal.z * (backNormalPayload ℝ).normal.z)⟩
    b (backNormalPayload ℝ).normal ⟨1, 1, fun _ _ => ⟨1, 2, 3⟩⟩ ⟨1, 2, 3⟩ 0 0
    one_ne_zero one_ne_zero (fun _ _ => rfl) hn
  refine ⟨hn, rfl, ?_, by norm_num⟩
  have htex : (backNormalPayload ℝ).texture = some ⟨1, 1, fun _ _ => ⟨1, 2, 3⟩⟩ := rfl
  have hu : (backNormalPayload ℝ).tex_u = 0 := rfl
  have hv : (backNormalPayload ℝ).tex_v = 0 := rfl
  simp only [bump_fragment_shader, normalized_of_unit _ hn, hTBN, htex, hu, hv, hp,
    Option.bind_eq_bind, Option.some_bind, Option.pure_def]
  simp [backNormalPayload, Vec3.mulScalar]

/-- C13, amended: for a payload whose normal `(x, y, z)` is a unit vector with `x*x + z*z > 0`
and whose bound texture has non-zero width and height, `bump_fragment_shader` returns a colour
and every component of it lies in `[-255, 255]`. -/
theorem bump_fragment_shader_channel_range (payload : fragment_shader_payload ℝ)
    (tex : Texture ℝ) (htex : payload.texture = some tex)
    (hw : tex.width ≠ 0) (hh : tex.height ≠ 0)
    (hn : Vec3.norm Real.sqrt payload.normal = 1)
    (hxz : 0 < payload.normal.x * payload.normal.x + payload.normal.z * payload.normal.z) :
    ∃ c : Vec3 ℝ, bump_fragment_shader Real.sqrt payload = some c ∧
      (-255 ≤ c.x ∧ c.x ≤ 255) ∧ (-255 ≤ c.y ∧ c.y ≤ 255) ∧ (-255 ≤ c.z ∧ c.z ≤ 255) := by
  obtain ⟨b, _, hTBN⟩ := buildTBN_defined _ hn hxz
  obtain ⟨r, hr, hle⟩ := perturbNormal_defined
    !![payload.normal.x * payload.normal.y
          / Real.sqrt (payload.normal.x * payload.normal.x + payload.normal.z * payload.normal.z),
        b.x, payload.normal.x;
       Real.sqrt (payload.normal.x * payload.normal.x + payload.normal.z * payload.normal.z),
        b.y, payload.normal.y;
       payload.normal.z * payload.normal.y
          / Real.sqrt (payload.normal.x * payload.normal.x + payload.normal.z * payload.normal.z),
        b.z, payload.normal.z]
    tex payload.tex_u payload.tex_v hw hh
  obtain ⟨⟨hx1, hx2⟩, ⟨hy1, hy2⟩, ⟨hz1, hz2⟩⟩ := components_le_one r hle
  refine ⟨Vec3.mulScalar r 255, ?_, ?_⟩
  · simp only [bump_fragment_shader, normalized_of_unit _ hn, hTBN, htex, hr,
      Option.bind_eq_bind, Option.some_bind, Option.pure_def]
  · simp only [Vec3.mulScalar]
    refine ⟨⟨?_, ?_⟩, ⟨?_, ?_⟩, ⟨?_, ?_⟩⟩ <;> linarith

/-- Instance of the amended C13: the payload with normal `(0, 0, -1)`. -/
theorem bump_fragment_shader_channel_range_witness :
    ∃ c : Vec3 ℝ, bump_fragment_shader Real.sqrt (backNormalPayload ℝ) = some c ∧
      (-255 ≤ c.x ∧ c.x ≤ 255) ∧ (-255 ≤ c.y ∧ c.y ≤ 255) ∧ (-255 ≤ c.z ∧ c.z ≤ 255) :=
  bump_fragment_shader_channel_range (backNormalPayload ℝ) ⟨1, 1, fun _ _ => ⟨1, 2, 3⟩⟩ rfl
    one_ne_zero one_ne_zero (by simp [backNormalPayload, Vec3.norm, Vec3.dot])
    (by simp [backNormalPayload])

/-- C14: for a Diffuse or PBR material and a unit normal `N`, the mean of
`dot(sample(wi, N), N)` over random numbers `x1`, `x2` uniform in `[0, 1]` is exactly `1/2`:
the cosine is `|1 - 2*x1|` for every `x1`, `x2`, and the integral of `|1 - 2*x1|` over `[0, 1]`
is `1/2`. -/
theorem hemisphere_sample_mean_cosine (M_PI : ℝ) (m : Material ℝ) (wi N : Vec3 ℝ)
    (hm : m.m_type = MaterialType.DIFFUSE ∨ m.m_type = MaterialType.PBR)
    (hN : Vec3.norm Real.sqrt N = 1) :
    (∀ x_1 x_2 : ℝ, ∃ s,
      Material.sample Real.sqrt Real.cos Real.sin M_PI m x_1 x_2 wi N = some s ∧
      Material.dotProduct s N = |1 - 2 * x_1|) ∧
    (∫ x_1 in (0 : ℝ)..1, ∫ x_2 in (0 : ℝ)..1,
      sampleDotNormal Real.sqrt Real.cos Real.sin M_PI m wi N x_1 x_2) = 1 / 2 ∧
    (∫ x_1 in (0 : ℝ)..1, |1 - 2 * x_1|) = 1 / 2 := by
  have hs := fun x_1 x_2 => sample_dot_normal M_PI m wi N x_1 x_2 hm hN
  have hval : ∀ x_1 x_2 : ℝ,
      sampleDotNormal Real.sqrt Real.cos Real.sin M_PI m wi N x_1 x_2 = |1 - 2 * x_1| := by
    intro x_1 x_2
    obtain ⟨s, hs1, hs2⟩ := hs x_1 x_2
    simp only [sampleDotNormal, hs1, hs2]
  refine ⟨hs, ?_, integral_abs_one_sub_two_mul⟩
  simp only [hval, intervalIntegral.integral_const, sub_zero, one_smul]
  exact integral_abs_one_sub_two_mul

/-- Instance of C14: a diffuse material and the normal `(0, 0, 1)`. -/
theorem hemisphere_sample_mean_cosine_witness :
    (∫ x_1 in (0 : ℝ)..1, ∫ x_2 in (0 : ℝ)..1,
      sampleDotNormal Real.sqrt Real.cos Real.sin Real.pi
        ⟨MaterialType.DIFFUSE, ⟨0, 0, 0⟩, 1, ⟨1, 1, 1⟩, ⟨0, 0, 0⟩, 0, ⟨1, 1, 1⟩, 0, 1⟩
        ⟨0, 0, -1⟩ ⟨0, 0, 1⟩ x_1 x_2) = 1 / 2 :=
  (hemisphere_sample_mean_cosine Real.pi
    ⟨MaterialType.DIFFUSE, ⟨0, 0, 0⟩, 1, ⟨1, 1, 1⟩, ⟨0, 0, 0⟩, 0, ⟨1, 1, 1⟩, 0, 1⟩
    ⟨0, 0, -1⟩ ⟨0, 0, 1⟩ (Or.inl rfl) (by simp [Vec3.norm, Vec3.dot])).2.1

/-- C15 fails on the code: for the unit normal `(3/5, 4/5, 0)` (with `x*x + z*z = 9/25 > 0`)
the matrix of `buildTBN` has the tangent `(4/5, 3/5, 0)` as first column and the normal as
third column, and their dot product is `24/25`, not 0. -/
theorem buildTBN_tangent_not_orthogonal :
    Vec3.norm Real.sqrt (⟨3 / 5, 4 / 5, 0⟩ : Vec3 ℝ) = 1 ∧
    buildTBN Real.sqrt ⟨3 / 5, 4 / 5, 0⟩
      = some !![4 / 5, 0, 3 / 5;
                3 / 5, 0, 4 / 5;
                0, -1, 0] ∧
    Vec3.dot (⟨4 / 5, 3 / 5, 0⟩ : Vec3 ℝ) ⟨3 / 5, 4 / 5, 0⟩ = 24 / 25 := by
  have hn : Vec3.norm Real.sqrt (⟨3 / 5, 4 / 5, 0⟩ : Vec3 ℝ) = 1 := by
    simp only [Vec3.norm, Vec3.dot]
    rw [show (3 / 5 : ℝ) * (3 / 5) + 4 / 5 * (4 / 5) + 0 * 0 = 1 by norm_num]
    exact Real.sqrt_one
  have hs : Real.sqrt ((3 / 5 : ℝ) * (3 / 5) + 0 * 0) = 3 / 5 := by
    rw [show (3 / 5 : ℝ) * (3 / 5) + 0 * 0 = (3 / 5) * (3 / 5) by norm_num]
    exact Real.sqrt_mul_self (by norm_num)
  have ht0 : (⟨3 / 5 * (4 / 5) / (3 / 5), 3 / 5, 0 * (4 / 5) / (3 / 5)⟩ : Vec3 ℝ)
      = ⟨4 / 5, 3 / 5, 0⟩ := by
    norm_num
  have ht : Vec3.normalized Real.sqrt (⟨4 / 5, 3 / 5, 0⟩ : Vec3 ℝ) = some ⟨4 / 5, 3 / 5, 0⟩ := by
    apply normalized_of_unit
    simp only [Vec3.norm, Vec3.dot]
    rw [show (4 / 5 : ℝ) * (4 / 5) + 3 / 5 * (3 / 5) + 0 * 0 = 1 by norm_num]
    exact Real.sqrt_one
  have hc : Vec3.cross (⟨3 / 5, 4 / 5, 0⟩ : Vec3 ℝ) ⟨4 / 5, 3 / 5, 0⟩ = ⟨0, 0, -(7 / 25)⟩ := by
    simp only [Vec3.cross]
    norm_num
  have hb : Vec3.normalized Real.sqrt (⟨0, 0, -(7 / 25)⟩ : Vec3 ℝ) = some ⟨0, 0, -1⟩ := by
    have hpos : 0 < Vec3.dot (⟨0, 0, -(7 / 25)⟩ : Vec3 ℝ) ⟨0, 0, -(7 / 25)⟩ := by
      simp only [Vec3.dot]
      norm_num
    have hsq : Real.sqrt (Vec3.dot (⟨0, 0, -(7 / 25)⟩ : Vec3 ℝ) ⟨0, 0, -(7 / 25)⟩) = 7 / 25 := by
      simp only [Vec3.dot]
      rw [show (0 : ℝ) * 0 + 0 * 0 + -(7 / 25) * -(7 / 25) = (7 / 25) * (7 / 25) by norm_num]
      exact Real.sqrt_mul_self (by norm_num)
    rw [normalized_of_pos _ hpos]
    simp only [Vec3.norm, hsq]
    norm_num
  refine ⟨hn, ?_, ?_⟩
  · simp only [buildTBN, hs, fdiv_of_ne _ (show (3 / 5 : ℝ) ≠ 0 by norm_num), ht0, ht, hc, hb,
      Option.bind_eq_bind, Option.some_bind, Option.pure_def]
  · simp only [Vec3.dot]
    norm_num

/-- C16 fails as stated: on the unit normals `(0, 1, 0)` and `(0, -1, 0)` the divisor
`sqrt(x*x + z*z)` of the tangent construction is 0, and `buildTBN` has no result. -/
theorem buildTBN_vertical_normal_divides_by_zero :
    Vec3.norm Real.sqrt (⟨0, 1, 0⟩ : Vec3 ℝ) = 1 ∧
    Real.sqrt ((0 : ℝ) * 0 + 0 * 0) = 0 ∧
    buildTBN Real.sqrt (⟨0, 1, 0⟩ : Vec3 ℝ) = none ∧
    buildTBN Real.sqrt (⟨0, -1, 0⟩ : Vec3 ℝ) = none := by
  refine ⟨?_, ?_, ?_, ?_⟩
  · simp [Vec3.norm, Vec3.dot]
  · simp
  · simp [buildTBN, fdiv]
  · simp [buildTBN, fdiv]

/-- C16, amended: for a unit normal `(x, y, z)` with `x*x + z*z > 0` the divisor
`sqrt(x*x + z*z)` of the tangent construction is not zero, `buildTBN` returns a matrix, and its
first column, the tangent `(x*y/s, s, z*y/s)`, is a unit vector. -/
theorem buildTBN_off_axis_defined (n : Vec3 ℝ) (hn : Vec3.norm Real.sqrt n = 1)
    (hxz : 0 < n.x * n.x + n.z * n.z) :
    Real.sqrt (n.x * n.x + n.z * n.z) ≠ 0 ∧
    ∃ TBN : Mat3 ℝ, buildTBN Real.sqrt n = some TBN ∧
      (⟨TBN 0 0, TBN 1 0, TBN 2 0⟩ : Vec3 ℝ)
        = ⟨n.x * n.y / Real.sqrt (n.x * n.x + n.z * n.z), Real.sqrt (n.x * n.x + n.z * n.z),
            n.z * n.y / Real.sqrt (n.x * n.x + n.z * n.z)⟩ ∧
      Vec3.norm Real.sqrt (⟨TBN 0 0, TBN 1 0, TBN 2 0⟩ : Vec3 ℝ) = 1 := by
  obtain ⟨hs, htt, _⟩ := tangent_facts n hn hxz
  obtain ⟨b, _, hTBN⟩ := buildTBN_defined n hn hxz
  refine ⟨hs, _, hTBN, ?_, ?_⟩
  · simp
  · simp only [Vec3.norm]
    have hcol : (⟨(!![n.x * n.y / Real.sqrt (n.x * n.x + n.z * n.z), b.x, n.x;
          Real.sqrt (n.x * n.x + n.z * n.z), b.y, n.y;
          n.z * n.y / Real.sqrt (n.x * n.x + n.z * n.z), b.z, n.z] : Mat3 ℝ) 0 0,
        (!![n.x * n.y / Real.sqrt (n.x * n.x + n.z * n.z), b.x, n.x;
          Real.sqrt (n.x * n.x + n.z * n.z), b.y, n.y;
          n.z * n.y / Real.sqrt (n.x * n.x + n.z * n.z), b.z, n.z] : Mat3 ℝ) 1 0,
        (!![n.x * n.y / Real.sqrt (n.x * n.x + n.z * n.z), b.x, n.x;
          Real.sqrt (n.x * n.x + n.z * n.z), b.y, n.y;
          n.z * n.y / Real.sqrt (n.x * n.x + n.z * n.z), b.z, n.z] : Mat3 ℝ) 2 0⟩ : Vec3 ℝ)
        = ⟨n.x * n.y / Real.sqrt (n.x * n.x + n.z * n.z), Real.sqrt (n.x * n.x + n.z * n.z),
            n.z * n.y / Real.sqrt (n.x * n.x + n.z * n.z)⟩ := by
      simp
    rw [hcol, htt]
    exact Real.sqrt_one

/-- Instance of the amended C16: the unit normal `(0, 0, 1)`. -/
theorem buildTBN_off_axis_defined_witness :
    Real.sqrt ((0 : ℝ) * 0 + 1 * 1) ≠ 0 ∧
    ∃ TBN : Mat3 ℝ, buildTBN Real.sqrt ⟨0, 0, 1⟩ = some TBN ∧
      Vec3.norm Real.sqrt (⟨TBN 0 0, TBN 1 0, TBN 2 0⟩ : Vec3 ℝ) = 1 := by
  obtain ⟨h1, TBN, h2, _, h3⟩ := buildTBN_off_axis_defined ⟨0, 0, 1⟩
    (by simp [Vec3.norm, Vec3.dot]) (by norm_num)
  exact ⟨h1, TBN, h2, h3⟩

/-- C17: Helmholtz reciprocity of the PBR BRDF. For a PBR material with any albedo, metallic
and roughness, a unit normal `N` and unit directions `wi`, `wo` with `dot(N, wo) > 0` and
`dot(N, -wi) > 0`, `eval(wi, wo, N)` and `eval(-wo, -wi, N)` return the same colour. -/
theorem pbr_eval_reciprocity (M_PI : ℝ) (m : Material ℝ) (wi wo N : Vec3 ℝ)
    (hm : m.m_type = MaterialType.PBR)
    (hN : Vec3.norm Real.sqrt N = 1) (hwi : Vec3.norm Real.sqrt wi = 1)
    (hwo : Vec3.norm Real.sqrt wo = 1)
    (hL : 0 < Material.dotProduct N wo) (hV : 0 < Material.dotProduct N (Vec3.neg wi)) :
    ∃ c, Material.eval Real.sqrt M_PI m wi wo N = some c ∧
      Material.eval Real.sqrt M_PI m (Vec3.neg wo) (Vec3.neg wi) N = some c := by
  have hNN : Material.dotProduct N N = 1 := Real.sqrt_eq_one.mp hN
  have hii : Material.dotProduct wi wi = 1 := Real.sqrt_eq_one.mp hwi
  have hoo : Material.dotProduct wo wo = 1 := Real.sqrt_eq_one.mp hwo
  have hnii : Material.dotProduct (Vec3.neg wi) (Vec3.neg wi) = 1 := by
    simp only [Material.dotProduct, Vec3.neg] at hii ⊢
    linarith
  have hnwi : Vec3.norm Real.sqrt (Vec3.neg wi) = 1 := Real.sqrt_eq_one.mpr hnii
  have hnwo : Vec3.norm Real.sqrt (Vec3.neg wo) = 1 := by
    apply Real.sqrt_eq_one.mpr
    simp only [Material.dotProduct, Vec3.dot, Vec3.neg] at hoo ⊢
    linarith
  have hnn : Vec3.neg (Vec3.neg wo) = wo := by simp [Vec3.neg]
  have hV1 : Material.dotProduct N (Vec3.neg wi) ≤ 1 := dotProduct_le_one _ _ hNN hnii
  have hL1 : Material.dotProduct N wo ≤ 1 := dotProduct_le_one _ _ hNN hoo
  have hk : 0 ≤ (m.m_roughness + 1) * (m.m_roughness + 1) * 0.125 := by
    have := mul_self_nonneg (m.m_roughness + 1)
    linarith
  have hdV : max (Material.dotProduct N (Vec3.neg wi)) 0
      * (1 - (m.m_roughness + 1) * (m.m_roughness + 1) * 0.125)
      + (m.m_roughness + 1) * (m.m_roughness + 1) * 0.125 ≠ 0 := by
    rw [max_eq_left hV.le]
    apply ne_of_gt
    nlinarith [mul_nonneg hk (sub_nonneg.mpr hV1)]
  have hdL : max (Material.dotProduct N wo) 0
      * (1 - (m.m_roughness + 1) * (m.m_roughness + 1) * 0.125)
      + (m.m_roughness + 1) * (m.m_roughness + 1) * 0.125 ≠ 0 := by
    rw [max_eq_left hL.le]
    apply ne_of_gt
    nlinarith [mul_nonneg hk (sub_nonneg.mpr hL1)]
  have hS : 0 < Vec3.dot (Vec3.add wo (Vec3.neg wi)) (Vec3.add wo (Vec3.neg wi)) := by
    apply dot_self_pos_of_ne
    intro h0
    have hx : wo.x + -wi.x = 0 := congrArg Vec3.x h0
    have hy : wo.y + -wi.y = 0 := congrArg Vec3.y h0
    have hz : wo.z + -wi.z = 0 := congrArg Vec3.z h0
    simp only [Material.dotProduct, Vec3.neg] at hL hV
    have hsum : (N.x * wo.x + N.y * wo.y + N.z * wo.z)
        + (N.x * -wi.x + N.y * -wi.y + N.z * -wi.z) = 0 := by
      linear_combination N.x * hx + N.y * hy + N.z * hz
    linarith
  obtain ⟨H, hH, _, hHval⟩ := normalizedV_of_pos _ hS
  have hswap : Vec3.add (Vec3.neg wi) wo = Vec3.add wo (Vec3.neg wi) := by
    simp [Vec3.add, Vec3.neg, add_comm]
  have hHV : Material.dotProduct H wo = Material.dotProduct H (Vec3.neg wi) := by
    have hs : Vec3.norm Real.sqrt (Vec3.add wo (Vec3.neg wi)) ≠ 0 :=
      (Real.sqrt_pos.mpr hS).ne'
    rw [hHval]
    generalize Vec3.norm Real.sqrt (Vec3.add wo (Vec3.neg wi)) = L at hs
    simp only [Material.dotProduct, Vec3.add, Vec3.neg] at hii hoo ⊢
    field_simp
    linear_combination L ^ 3 * (hoo - hii)
  have e1 := eval_pbr_unit M_PI m wi wo N H hm hwi hwo hL hH hdV hdL
  have e2 := eval_pbr_unit M_PI m (Vec3.neg wo) (Vec3.neg wi) N H hm hnwo hnwi hV
    (by rw [hnn, hswap]; exact hH) (by rw [hnn]; exact hdL) hdV
  rw [hnn, hHV] at e2
  refine ⟨_, e1, ?_⟩
  rw [e2]
  congr 2
  ring

/-- Instance of C17: light along the normal `(0, 0, 1)` and view direction `(3/5, 0, 4/5)`. -/
theorem pbr_eval_reciprocity_witness :
    ∃ c, Material.eval Real.sqrt Real.pi
        ⟨MaterialType.PBR, ⟨0, 0, 0⟩, 1, ⟨1, 1, 1⟩, ⟨0, 0, 0⟩, 0, ⟨1, 1, 1⟩, 1 / 2, 1 / 2⟩
        ⟨-(3 / 5), 0, -(4 / 5)⟩ ⟨0, 0, 1⟩ ⟨0, 0, 1⟩ = some c ∧
      Material.eval Real.sqrt Real.pi
        ⟨MaterialType.PBR, ⟨0, 0, 0⟩, 1, ⟨1, 1, 1⟩, ⟨0, 0, 0⟩, 0, ⟨1, 1, 1⟩, 1 / 2, 1 / 2⟩
        (Vec3.neg ⟨0, 0, 1⟩) (Vec3.neg ⟨-(3 / 5), 0, -(4 / 5)⟩) ⟨0, 0, 1⟩ = some c :=
  pbr_eval_reciprocity Real.pi _ ⟨-(3 / 5), 0, -(4 / 5)⟩ ⟨0, 0, 1⟩ ⟨0, 0, 1⟩ rfl
    (by simp [Vec3.norm, Vec3.dot])
    (by
      apply Real.sqrt_eq_one.mpr
      simp only [Vec3.dot]
      norm_num)
    (by simp [Vec3.norm, Vec3.dot])
    (by simp [Material.dotProduct])
    (by
      simp only [Material.dotProduct, Vec3.neg]
      norm_num)

/-- C18 fails as stated: with `wi = wo = N = (0, 0, 1)` (unit vectors, `dot(N, wo) = 1 > 0`) and
albedo, metallic and roughness in `[0, 1]`, the half vector is the normalisation of the zero
vector, and `eval` has no value. -/
theorem pbr_eval_undefined_for_equal_directions :
    Vec3.add (⟨0, 0, 1⟩ : Vec3 ℝ) (Vec3.neg ⟨0, 0, 1⟩) = ⟨0, 0, 0⟩ ∧
    Material.eval Real.sqrt Real.pi
      ⟨MaterialType.PBR, ⟨0, 0, 0⟩, 1, ⟨1, 1, 1⟩, ⟨0, 0, 0⟩, 0, ⟨1 / 2, 1 / 2, 1 / 2⟩, 1 / 2,
        1 / 2⟩
      ⟨0, 0, 1⟩ ⟨0, 0, 1⟩ ⟨0, 0, 1⟩ = none := by
  have hadd : Vec3.add (⟨0, 0, 1⟩ : Vec3 ℝ) (Vec3.neg ⟨0, 0, 1⟩) = ⟨0, 0, 0⟩ := by
    simp [Vec3.add, Vec3.neg]
  have hu : Vec3.norm Real.sqrt (⟨0, 0, 1⟩ : Vec3 ℝ) = 1 := by simp [Vec3.norm, Vec3.dot]
  have hz : Vec3.normalizedV Real.sqrt (⟨0, 0, 0⟩ : Vec3 ℝ) = none := by
    simp [Vec3.normalizedV, Vec3.norm, Vec3.dot, Vec3.divScalar]
  have hpos : ¬ Material.dotProduct (⟨0, 0, 1⟩ : Vec3 ℝ) ⟨0, 0, 1⟩ ≤ 0 := by
    simp [Material.dotProduct]
  refine ⟨hadd, ?_⟩
  simp only [Material.eval, if_neg hpos, normalizedV_of_unit _ hu, hadd, hz,
    Option.bind_eq_bind, Option.some_bind, Option.none_bind]

/-- C18, amended: for a PBR material with albedo, metallic and roughness in `[0, 1]` and unit
vectors `wi ≠ wo`, `N` with `dot(N, wo) > 0`: `k = (roughness+1)^2/8` is at least `1/8`, both
divisors of `Visibility` are at least `k`, the half vector is defined, the Fresnel term lies
componentwise between `F0` and 1, and `eval(wi, wo, N)` is a colour whose components are all
non-negative. -/
theorem pbr_eval_bounds (M_PI : ℝ) (m : Material ℝ) (wi wo N : Vec3 ℝ)
    (hm : m.m_type = MaterialType.PBR)
    (hax : 0 ≤ m.m_albedo.x ∧ m.m_albedo.x ≤ 1) (hay : 0 ≤ m.m_albedo.y ∧ m.m_albedo.y ≤ 1)
    (haz : 0 ≤ m.m_albedo.z ∧ m.m_albedo.z ≤ 1)
    (hmet : 0 ≤ m.m_metallic ∧ m.m_metallic ≤ 1)
    (hrough : 0 ≤ m.m_roughness ∧ m.m_roughness ≤ 1)
    (_hN : Vec3.norm Real.sqrt N = 1) (hwi : Vec3.norm Real.sqrt wi = 1)
    (hwo : Vec3.norm Real.sqrt wo = 1)
    (hL : 0 < Material.dotProduct N wo) (hne : wi ≠ wo) :
    1 / 8 ≤ (m.m_roughness + 1) * (m.m_roughness + 1) * 0.125 ∧
    (m.m_roughness + 1) * (m.m_roughness + 1) * 0.125
      ≤ max (Material.dotProduct N (Vec3.neg wi)) 0
          * (1 - (m.m_roughness + 1) * (m.m_roughness + 1) * 0.125)
        + (m.m_roughness + 1) * (m.m_roughness + 1) * 0.125 ∧
    (m.m_roughness + 1) * (m.m_roughness + 1) * 0.125
      ≤ max (Material.dotProduct N wo) 0
          * (1 - (m.m_roughness + 1) * (m.m_roughness + 1) * 0.125)
        + (m.m_roughness + 1) * (m.m_roughness + 1) * 0.125 ∧
    ∃ H, Vec3.normalizedV Real.sqrt (Vec3.add wo (Vec3.neg wi)) = some H ∧
      ((Material.LerpVec3 ⟨0.04, 0.04, 0.04⟩ m.m_albedo m.m_metallic).x
          ≤ (Material.FresnelSchlick (max (Material.dotProduct H (Vec3.neg wi)) 0)
              (Material.LerpVec3 ⟨0.04, 0.04, 0.04⟩ m.m_albedo m.m_metallic)).x ∧
        (Material.FresnelSchlick (max (Material.dotProduct H (Vec3.neg wi)) 0)
              (Material.LerpVec3 ⟨0.04, 0.04, 0.04⟩ m.m_albedo m.m_metallic)).x ≤ 1) ∧
      ((Material.LerpVec3 ⟨0.04, 0.04, 0.04⟩ m.m_albedo m.m_metallic).y
          ≤ (Material.FresnelSchlick (max (Material.dotProduct H (Vec3.neg wi)) 0)
              (Material.LerpVec3 ⟨0.04, 0.04, 0.04⟩ m.m_albedo m.m_metallic)).y ∧
        (Material.FresnelSchlick (max (Material.dotProduct H (Vec3.neg wi)) 0)
              (Material.LerpVec3 ⟨0.04, 0.04, 0.04⟩ m.m_albedo m.m_metallic)).y ≤ 1) ∧
      ((Material.LerpVec3 ⟨0.04, 0.04, 0.04⟩ m.m_albedo m.m_metallic).z
          ≤ (Material.FresnelSchlick (max (Material.dotProduct H (Vec3.neg wi)) 0)
              (Material.LerpVec3 ⟨0.04, 0.04, 0.04⟩ m.m_albedo m.m_metallic)).z ∧
        (Material.FresnelSchlick (max (Material.dotProduct H (Vec3.neg wi)) 0)
              (Material.LerpVec3 ⟨0.04, 0.04, 0.04⟩ m.m_albedo m.m_metallic)).z ≤ 1) ∧
      ∃ c, Material.eval Real.sqrt M_PI m wi wo N = some c ∧ 0 ≤ c.x ∧ 0 ≤ c.y ∧ 0 ≤ c.z := by
  have hii : Material.dotProduct wi wi = 1 := Real.sqrt_eq_one.mp hwi
  have hnii : Material.dotProduct (Vec3.neg wi) (Vec3.neg wi) = 1 := by
    simp only [Material.dotProduct, Vec3.neg] at hii ⊢
    linarith
  have hk8 : 1 / 8 ≤ (m.m_roughness + 1) * (m.m_roughness + 1) * 0.125 := by
    nlinarith [hrough.1]
  have hk2 : (m.m_roughness + 1) * (m.m_roughness + 1) * 0.125 ≤ 1 / 2 := by
    nlinarith [hrough.1, hrough.2]
  have hdiv : ∀ c : ℝ, (m.m_roughness + 1) * (m.m_roughness + 1) * 0.125
      ≤ max c 0 * (1 - (m.m_roughness + 1) * (m.m_roughness + 1) * 0.125)
        + (m.m_roughness + 1) * (m.m_roughness + 1) * 0.125 := by
    intro c
    have h0 : 0 ≤ max c 0 := le_max_right _ _
    nlinarith [mul_nonneg h0 (show 0 ≤ 1 - (m.m_roughness + 1) * (m.m_roughness + 1) * 0.125
      by linarith)]
  have hdV := hdiv (Material.dotProduct N (Vec3.neg wi))
  have hdL := hdiv (Material.dotProduct N wo)
  have hS : 0 < Vec3.dot (Vec3.add wo (Vec3.neg wi)) (Vec3.add wo (Vec3.neg wi)) := by
    apply dot_self_pos_of_ne
    intro h0
    have hx : wo.x + -wi.x = 0 := congrArg Vec3.x h0
    have hy : wo.y + -wi.y = 0 := congrArg Vec3.y h0
    have hz : wo.z + -wi.z = 0 := congrArg Vec3.z h0
    apply hne
    rcases wi with ⟨a, b, c⟩
    rcases wo with ⟨d, e, f⟩
    simp only at hx hy hz
    congr <;> linarith
  obtain ⟨H, hH, hHH, _⟩ := normalizedV_of_pos _ hS
  have hh : 0 ≤ max (Material.dotProduct H (Vec3.neg wi)) 0
      ∧ max (Material.dotProduct H (Vec3.neg wi)) 0 ≤ 1 :=
    ⟨le_max_right _ _, max_le (dotProduct_le_one _ _ hHH hnii) zero_le_one⟩
  have hndf : 0 ≤ Material.DistributionGGX (max (Material.dotProduct N H) 0) m.m_roughness := by
    rw [DistributionGGX_value]
    have hpi : (0 : ℝ) < Material.MY_PI := by norm_num [Material.MY_PI]
    positivity
  have hvis : 0 ≤ 1 / (max (Material.dotProduct N (Vec3.neg wi)) 0
        * (1 - (m.m_roughness + 1) * (m.m_roughness + 1) * 0.125)
        + (m.m_roughness + 1) * (m.m_roughness + 1) * 0.125)
      * (1 / (max (Material.dotProduct N wo) 0
        * (1 - (m.m_roughness + 1) * (m.m_roughness + 1) * 0.125)
        + (m.m_roughness + 1) * (m.m_roughness + 1) * 0.125)) * 0.25 := by
    have p1 := lt_of_lt_of_le (by norm_num : (0 : ℝ) < 1 / 8) (le_trans hk8 hdV)
    have p2 := lt_of_lt_of_le (by norm_num : (0 : ℝ) < 1 / 8) (le_trans hk8 hdL)
    positivity
  have hpi : (0 : ℝ) < Material.MY_PI := by norm_num [Material.MY_PI]
  have bx := pbr_channel_bounds m.m_albedo.x m.m_metallic _ _ _ _ hax hmet hh hndf hvis hpi
  have by1 := pbr_channel_bounds m.m_albedo.y m.m_metallic _ _ _ _ hay hmet hh hndf hvis hpi
  have bz := pbr_channel_bounds m.m_albedo.z m.m_metallic _ _ _ _ haz hmet hh hndf hvis hpi
  have he := eval_pbr_unit M_PI m wi wo N H hm hwi hwo hL hH
    (ne_of_gt (lt_of_lt_of_le (by norm_num : (0 : ℝ) < 1 / 8) (le_trans hk8 hdV)))
    (ne_of_gt (lt_of_lt_of_le (by norm_num : (0 : ℝ) < 1 / 8) (le_trans hk8 hdL)))
  refine ⟨hk8, hdV, hdL, H, hH, bx.1, by1.1, bz.1, _, he, bx.2, by1.2, bz.2⟩

/-- Instance of the amended C18: light along the normal `(0, 0, 1)`, view along the normal
(`wi = (0, 0, -1)`), albedo, metallic and roughness `1/2`. -/
theorem pbr_eval_bounds_witness :
    ∃ c, Material.eval Real.sqrt Real.pi
        ⟨MaterialType.PBR, ⟨0, 0, 0⟩, 1, ⟨1, 1, 1⟩, ⟨0, 0, 0⟩, 0, ⟨1 / 2, 1 / 2, 1 / 2⟩, 1 / 2,
          1 / 2⟩
        ⟨0, 0, -1⟩ ⟨0, 0, 1⟩ ⟨0, 0, 1⟩ = some c ∧ 0 ≤ c.x ∧ 0 ≤ c.y ∧ 0 ≤ c.z := by
  obtain ⟨_, _, _, _, _, _, _, _, c, hc⟩ := pbr_eval_bounds Real.pi
    ⟨MaterialType.PBR, ⟨0, 0, 0⟩, 1, ⟨1, 1, 1⟩, ⟨0, 0, 0⟩, 0, ⟨1 / 2, 1 / 2, 1 / 2⟩, 1 / 2,
      1 / 2⟩
    ⟨0, 0, -1⟩ ⟨0, 0, 1⟩ ⟨0, 0, 1⟩ rfl
    ⟨by norm_num, by norm_num⟩ ⟨by norm_num, by norm_num⟩ ⟨by norm_num, by norm_num⟩
    ⟨by norm_num, by norm_num⟩ ⟨by norm_num, by norm_num⟩
    (by simp [Vec3.norm, Vec3.dot]) (by simp [Vec3.norm, Vec3.dot])
    (by simp [Vec3.norm, Vec3.dot]) (by simp [Material.dotProduct])
    (by
      intro h
      have := congrArg Vec3.z h
      norm_num at this)
  exact ⟨c, hc⟩

/-- C19: for `0 < near < far`, a field of view in `(0, 180)` and a positive aspect, the matrix
of `get_projection_matrix` gives every camera-space point `(x, y, z, 1)` with
`-far ≤ z ≤ -near` the clip-space `w = z < 0` and, after division by `w`, a depth in
`[-1, 1]`; of two such points the one with the larger `z` has the larger depth; the near
plane has depth 1 and the far plane depth -1. -/
theorem get_projection_matrix_depth_order (MY_PI fov aspect near far : ℝ)
    (hpi : 0 < MY_PI ∧ MY_PI ≤ Real.pi) (hfov : 0 < fov ∧ fov < 180) (hasp : 0 < aspect)
    (hnear : 0 < near) (hlt : near < far) :
    ∃ M, get_projection_matrix Real.tan MY_PI fov aspect near far = some M ∧
      (∀ x y z : ℝ, -far ≤ z → z ≤ -near →
        Matrix.mulVec M ![x, y, z, 1] 3 = z ∧ z < 0 ∧
        ∃ c, perspectiveDivide (Matrix.mulVec M ![x, y, z, 1]) = some c ∧
          -1 ≤ c.z ∧ c.z ≤ 1) ∧
      (∀ x1 y1 z1 x2 y2 z2 : ℝ, ∀ c1 c2 : Vec3 ℝ,
        -far ≤ z1 → z1 ≤ -near → -far ≤ z2 → z2 ≤ -near →
        perspectiveDivide (Matrix.mulVec M ![x1, y1, z1, 1]) = some c1 →
        perspectiveDivide (Matrix.mulVec M ![x2, y2, z2, 1]) = some c2 →
        z1 > z2 → c1.z > c2.z) ∧
      (∀ x y : ℝ, ∃ c, perspectiveDivide (Matrix.mulVec M ![x, y, -near, 1]) = some c ∧
        c.z = 1) ∧
      (∀ x y : ℝ, ∃ c, perspectiveDivide (Matrix.mulVec M ![x, y, -far, 1]) = some c ∧
        c.z = -1) := by
  obtain ⟨_, hM⟩ := get_projection_matrix_value MY_PI fov aspect near far hpi hfov hasp hnear
    hlt.ne
  have hfar : 0 < far := lt_trans hnear hlt
  have hd : 0 < far - near := sub_pos.mpr hlt
  refine ⟨_, hM, ?_⟩
  simp only [mat4_mulVec]
  have hdiv : ∀ x y z : ℝ, z ≠ 0 → ∀ a b : ℝ,
      perspectiveDivide ![a, b, 0 * x + 0 * y + -(near + far) / (far - near) * z
          + -(2 * near * far) / (far - near) * 1, 0 * x + 0 * y + 1 * z + 0 * 1]
        = some ⟨a / z, b / z,
            (-(near + far) * z - 2 * near * far) / ((far - near) * z)⟩ := by
    intro x y z hz a b
    simp only [perspectiveDivide]
    simp [hz]
    field_simp
    ring
  have hw : ∀ x y z : ℝ, (![0 * x + 0 * y + 0 * z + 0 * 1, 0 * x + 0 * y + 0 * z + 0 * 1,
      0 * x + 0 * y + -(near + far) / (far - near) * z + -(2 * near * far) / (far - near) * 1,
      0 * x + 0 * y + 1 * z + 0 * 1] : Vec4 ℝ) 3 = z := by
    intro x y z
    simp
  refine ⟨?_, ?_, ?_, ?_⟩
  · intro x y z h1 h2
    have hz : z < 0 := by linarith
    have hden : (far - near) * z < 0 := mul_neg_of_pos_of_neg hd hz
    refine ⟨hw x y z, hz, _, hdiv x y z hz.ne _ _, ?_, ?_⟩
    · show -1 ≤ (-(near + far) * z - 2 * near * far) / ((far - near) * z)
      rw [le_div_iff_of_neg hden]
      nlinarith [mul_nonneg hnear.le (show 0 ≤ z + far by linarith)]
    · show (-(near + far) * z - 2 * near * far) / ((far - near) * z) ≤ 1
      rw [div_le_iff_of_neg hden]
      nlinarith [mul_nonneg hfar.le (show 0 ≤ -(z + near) by linarith)]
  · intro x1 y1 z1 x2 y2 z2 c1 c2 _ h1 _ h2 hc1 hc2 hgt
    have hz1 : z1 < 0 := by linarith
    have hz2 : z2 < 0 := by linarith
    rw [hdiv x1 y1 z1 hz1.ne] at hc1
    rw [hdiv x2 y2 z2 hz2.ne] at hc2
    rw [← Option.some.inj hc1, ← Option.some.inj hc2]
    show (-(near + far) * z1 - 2 * near * far) / ((far - near) * z1)
      > (-(near + far) * z2 - 2 * near * far) / ((far - near) * z2)
    have key : (-(near + far) * z1 - 2 * near * far) / ((far - near) * z1)
        - (-(near + far) * z2 - 2 * near * far) / ((far - near) * z2)
        = 2 * near * far * (z1 - z2) / ((far - near) * (z1 * z2)) := by
      have hd2 : far - near ≠ 0 := hd.ne'
      have hz1n : z1 ≠ 0 := hz1.ne
      have hz2n : z2 ≠ 0 := hz2.ne
      field_simp
      ring
    have hpos : 0 < 2 * near * far * (z1 - z2) / ((far - near) * (z1 * z2)) := by
      apply div_pos
      · have : 0 < z1 - z2 := by linarith
        positivity
      · exact mul_pos hd (mul_pos_of_neg_of_neg hz1 hz2)
    linarith
  · intro x y
    have hz : -near ≠ 0 := by linarith
    refine ⟨_, hdiv x y (-near) hz _ _, ?_⟩
    show (-(near + far) * -near - 2 * near * far) / ((far - near) * -near) = 1
    have hd2 : far - near ≠ 0 := hd.ne'
    field_simp
    ring
  · intro x y
    have hz : -far ≠ 0 := by linarith
    refine ⟨_, hdiv x y (-far) hz _ _, ?_⟩
    show (-(near + far) * -far - 2 * near * far) / ((far - near) * -far) = -1
    have hd2 : far - near ≠ 0 := hd.ne'
    field_simp
    ring

/-- Instance of C19 on the call of `main`: near 0.1 and far 50; the near plane has depth 1. -/
theorem get_projection_matrix_depth_order_witness :
    ∃ M, get_projection_matrix Real.tan 3.1415926 45 1 0.1 50 = some M ∧
      ∀ x y : ℝ, ∃ c, perspectiveDivide (Matrix.mulVec M ![x, y, -0.1, 1]) = some c ∧
        c.z = 1 := by
  obtain ⟨M, hM, _, _, h, _⟩ := get_projection_matrix_depth_order 3.1415926 45 1 0.1 50
    ⟨by norm_num, le_of_lt (lt_trans (by norm_num) Real.pi_gt_d20)⟩
    ⟨by norm_num, by norm_num⟩ (by norm_num) (by norm_num) (by norm_num)
  exact ⟨M, hM, h⟩

/-- C20: for a payload whose unit normal `(x, y, z)` has `x*x + z*z > 0` and whose texture (a
loaded image, so of non-zero width and height) returns `(0, 0, 0)` at every `(u, v)`,
`displacement_fragment_shader` leaves the shading point and the normal unchanged and returns
exactly what `phong_fragment_shader` returns on that payload; when the shaded point is at
neither light, that common result is a colour. -/
theorem displacement_fragment_shader_flat_texture (payload : fragment_shader_payload ℝ)
    (tex : Texture ℝ) (htex : payload.texture = some tex)
    (hw : tex.width ≠ 0) (hh : tex.height ≠ 0)
    (hzero : ∀ u v, tex.getColor u v = ⟨0, 0, 0⟩)
    (hn : Vec3.norm Real.sqrt payload.normal = 1)
    (hxz : 0 < payload.normal.x * payload.normal.x + payload.normal.z * payload.normal.z) :
    displacement_fragment_shader Real.sqrt payload = phong_fragment_shader Real.sqrt payload ∧
    Vec3.add payload.view_pos
        (Vec3.mulScalar (Vec3.smul 0.1 payload.normal)
          (Vec3.norm Real.sqrt (tex.getColor payload.tex_u payload.tex_v)))
      = payload.view_pos ∧
    (∃ TBN, buildTBN Real.sqrt payload.normal = some TBN ∧
      perturbNormal Real.sqrt TBN tex payload.tex_u payload.tex_v = some payload.normal) ∧
    (payload.view_pos ≠ ⟨20, 20, 20⟩ → payload.view_pos ≠ ⟨-20, 20, 0⟩ →
      ∃ c, displacement_fragment_shader Real.sqrt payload = some c ∧
        phong_fragment_shader Real.sqrt payload = some c) := by
  obtain ⟨b, _, hTBN⟩ := buildTBN_defined _ hn hxz
  have hp := perturbNormal_constant
    ⟨payload.normal.x * payload.normal.y
        / Real.sqrt (payload.normal.x * payload.normal.x + payload.normal.z * payload.normal.z),
      Real.sqrt (payload.normal.x * payload.normal.x + payload.normal.z * payload.normal.z),
      payload.normal.z * payload.normal.y
        / Real.sqrt (payload.normal.x * payload.normal.x + payload.normal.z * payload.normal.z)⟩
    b payload.normal tex ⟨0, 0, 0⟩ payload.tex_u payload.tex_v hw hh hzero hn
  have hpoint : Vec3.add payload.view_pos
      (Vec3.mulScalar (Vec3.smul 0.1 payload.normal)
        (Vec3.norm Real.sqrt (⟨0, 0, 0⟩ : Vec3 ℝ))) = payload.view_pos := by
    simp [Vec3.add, Vec3.mulScalar, Vec3.smul, Vec3.norm, Vec3.dot]
  obtain ⟨v, hv⟩ := normalized_total (Vec3.sub ⟨0, 0, 10⟩ payload.view_pos)
  have heq : displacement_fragment_shader Real.sqrt payload
      = phong_fragment_shader Real.sqrt payload := by
    simp only [displacement_fragment_shader, phong_fragment_shader, normalized_of_unit _ hn, hv,
      htex, hzero, hpoint, hTBN, hp, Option.bind_eq_bind, Option.some_bind]
  refine ⟨heq, ?_, ⟨_, hTBN, hp⟩, ?_⟩
  · rw [hzero]
    exact hpoint
  · intro h1 h2
    obtain ⟨c, hc⟩ := phong_defined payload h1 h2
    exact ⟨c, heq.trans hc, hc⟩

/-- Instance of C20: the payload at the origin with normal `(0, 0, 1)` and a black texture. -/
theorem displacement_fragment_shader_flat_texture_witness :
    displacement_fragment_shader Real.sqrt (flatTexturePayload ℝ)
      = phong_fragment_shader Real.sqrt (flatTexturePayload ℝ) ∧
    ∃ c, displacement_fragment_shader Real.sqrt (flatTexturePayload ℝ) = some c := by
  obtain ⟨heq, _, _, hdef⟩ := displacement_fragment_shader_flat_texture (flatTexturePayload ℝ)
    ⟨1, 1, fun _ _ => ⟨0, 0, 0⟩⟩ rfl one_ne_zero one_ne_zero (fun _ _ => rfl)
    (by simp [flatTexturePayload, Vec3.norm, Vec3.dot]) (by simp [flatTexturePayload])
  obtain ⟨c, hc, _⟩ := hdef (by simp [flatTexturePayload]) (by simp [flatTexturePayload])
  exact ⟨heq, c, hc⟩

/-- C21: for a payload with componentwise non-negative base colour, a non-zero normal and a
view-space position different from the eye and from both lights, `phong_fragment_shader`
returns a colour every channel of which is at least `25.5 = 255 * 2 * 0.005 * 10`; when
`dot(N, L) ≤ 0` and `dot(N, H) ≤ 0` for both lights the colour is exactly
`(25.5, 25.5, 25.5)`, whatever the base colour. Here `N`, `L` and `H` are the normalised
normal, light direction and half vector of the shader. -/
theorem phong_fragment_shader_ambient_floor (payload : fragment_shader_payload ℝ)
    (hcol : 0 ≤ payload.color.x ∧ 0 ≤ payload.color.y ∧ 0 ≤ payload.color.z)
    (_hnormal : payload.normal ≠ ⟨0, 0, 0⟩) (_heye : payload.view_pos ≠ ⟨0, 0, 10⟩)
    (h1 : payload.view_pos ≠ ⟨20, 20, 20⟩) (h2 : payload.view_pos ≠ ⟨-20, 20, 0⟩) :
    ∃ N V L1 L2 H1 H2 c : Vec3 ℝ,
      Vec3.normalized Real.sqrt payload.normal = some N ∧
      Vec3.normalized Real.sqrt (Vec3.sub ⟨0, 0, 10⟩ payload.view_pos) = some V ∧
      Vec3.normalized Real.sqrt (Vec3.sub ⟨20, 20, 20⟩ payload.view_pos) = some L1 ∧
      Vec3.normalized Real.sqrt (Vec3.sub ⟨-20, 20, 0⟩ payload.view_pos) = some L2 ∧
      Vec3.normalized Real.sqrt (Vec3.add V L1) = some H1 ∧
      Vec3.normalized Real.sqrt (Vec3.add V L2) = some H2 ∧
      phong_fragment_shader Real.sqrt payload = some c ∧
      25.5 ≤ c.x ∧ 25.5 ≤ c.y ∧ 25.5 ≤ c.z ∧
      (Vec3.dot N L1 ≤ 0 → Vec3.dot N H1 ≤ 0 → Vec3.dot N L2 ≤ 0 → Vec3.dot N H2 ≤ 0 →
        c = ⟨25.5, 25.5, 25.5⟩) := by
  obtain ⟨n, hn⟩ := normalized_total payload.normal
  obtain ⟨v, hv⟩ := normalized_total (Vec3.sub ⟨0, 0, 10⟩ payload.view_pos)
  obtain ⟨l1, hl1⟩ := normalized_total (Vec3.sub ⟨20, 20, 20⟩ payload.view_pos)
  obtain ⟨l2, hl2⟩ := normalized_total (Vec3.sub ⟨-20, 20, 0⟩ payload.view_pos)
  obtain ⟨g1, hg1⟩ := normalized_total (Vec3.add v l1)
  obtain ⟨g2, hg2⟩ := normalized_total (Vec3.add v l2)
  have hd1 := light_distance_pos ⟨20, 20, 20⟩ payload.view_pos h1
  have hd2 := light_distance_pos ⟨-20, 20, 0⟩ payload.view_pos h2
  have hval : phong_fragment_shader Real.sqrt payload
      = some (Vec3.mulScalar
          (Vec3.add
            (Vec3.add ⟨0, 0, 0⟩
              (Vec3.add
                (Vec3.add (Vec3.cwiseProduct ⟨0.005, 0.005, 0.005⟩ ⟨10, 10, 10⟩)
                  (Vec3.mulScalar
                    (Vec3.cwiseProduct payload.color
                      ⟨500 / Vec3.dot (Vec3.sub ⟨20, 20, 20⟩ payload.view_pos)
                          (Vec3.sub ⟨20, 20, 20⟩ payload.view_pos),
                        500 / Vec3.dot (Vec3.sub ⟨20, 20, 20⟩ payload.view_pos)
                          (Vec3.sub ⟨20, 20, 20⟩ payload.view_pos),
                        500 / Vec3.dot (Vec3.sub ⟨20, 20, 20⟩ payload.view_pos)
                          (Vec3.sub ⟨20, 20, 20⟩ payload.view_pos)⟩)
                    (max 0 (Vec3.dot n l1))))
                (Vec3.mulScalar
                  (Vec3.cwiseProduct ⟨0.7937, 0.7937, 0.7937⟩
                    ⟨500 / Vec3.dot (Vec3.sub ⟨20, 20, 20⟩ payload.view_pos)
                        (Vec3.sub ⟨20, 20, 20⟩ payload.view_pos),
                      500 / Vec3.dot (Vec3.sub ⟨20, 20, 20⟩ payload.view_pos)
                        (Vec3.sub ⟨20, 20, 20⟩ payload.view_pos),
                      500 / Vec3.dot (Vec3.sub ⟨20, 20, 20⟩ payload.view_pos)
                        (Vec3.sub ⟨20, 20, 20⟩ payload.view_pos)⟩)
                  ((max 0 (Vec3.dot n g1)) ^ 150))))
            (Vec3.add
              (Vec3.add (Vec3.cwiseProduct ⟨0.005, 0.005, 0.005⟩ ⟨10, 10, 10⟩)
                (Vec3.mulScalar
                  (Vec3.cwiseProduct payload.color
                    ⟨500 / Vec3.dot (Vec3.sub ⟨-20, 20, 0⟩ payload.view_pos)
                        (Vec3.sub ⟨-20, 20, 0⟩ payload.view_pos),
                      500 / Vec3.dot (Vec3.sub ⟨-20, 20, 0⟩ payload.view_pos)
                        (Vec3.sub ⟨-20, 20, 0⟩ payload.view_pos),
                      500 / Vec3.dot (Vec3.sub ⟨-20, 20, 0⟩ payload.view_pos)
                        (Vec3.sub ⟨-20, 20, 0⟩ payload.view_pos)⟩)
                  (max 0 (Vec3.dot n l2))))
              (Vec3.mulScalar
                (Vec3.cwiseProduct ⟨0.7937, 0.7937, 0.7937⟩
                  ⟨500 / Vec3.dot (Vec3.sub ⟨-20, 20, 0⟩ payload.view_pos)
                      (Vec3.sub ⟨-20, 20, 0⟩ payload.view_pos),
                    500 / Vec3.dot (Vec3.sub ⟨-20, 20, 0⟩ payload.view_pos)
                      (Vec3.sub ⟨-20, 20, 0⟩ payload.view_pos),
                    500 / Vec3.dot (Vec3.sub ⟨-20, 20, 0⟩ payload.view_pos)
                      (Vec3.sub ⟨-20, 20, 0⟩ payload.view_pos)⟩)
                ((max 0 (Vec3.dot n g2)) ^ 150))))
          255) := by
    simp only [phong_fragment_shader, hn, hv, hl1, hl2, hg1, hg2, divScalar_of_ne _ hd1.ne',
      divScalar_of_ne _ hd2.ne', List.foldlM, Option.bind_eq_bind, Option.some_bind,
      Option.pure_def]
  have bx := phong_channel_floor payload.color.x _ _ (Vec3.dot n l1) (Vec3.dot n g1)
    (Vec3.dot n l2) (Vec3.dot n g2) hcol.1 hd1 hd2
  have by1 := phong_channel_floor payload.color.y _ _ (Vec3.dot n l1) (Vec3.dot n g1)
    (Vec3.dot n l2) (Vec3.dot n g2) hcol.2.1 hd1 hd2
  have bz := phong_channel_floor payload.color.z _ _ (Vec3.dot n l1) (Vec3.dot n g1)
    (Vec3.dot n l2) (Vec3.dot n g2) hcol.2.2 hd1 hd2
  refine ⟨n, v, l1, l2, g1, g2, _, hn, hv, hl1, hl2, hg1, hg2, hval, bx.1, by1.1, bz.1, ?_⟩
  intro a1 b1 a2 b2
  have ex := bx.2 a1 b1 a2 b2
  have ey := by1.2 a1 b1 a2 b2
  have ez := bz.2 a1 b1 a2 b2
  simp only [Vec3.mulScalar, Vec3.add, Vec3.cwiseProduct, Vec3.mk.injEq]
  exact ⟨ex, ey, ez⟩

/-- Instances of C21: the payload at the origin with normal `(0, 0, 1)` has every channel at
least `25.5`, and the payload at the origin whose normal `(0, -1, 0)` faces away from both
lights is shaded exactly `(25.5, 25.5, 25.5)`. -/
theorem phong_fragment_shader_ambient_floor_witness :
    (∃ c : Vec3 ℝ, phong_fragment_shader Real.sqrt (untexturedPayload ℝ) = some c ∧
      25.5 ≤ c.x ∧ 25.5 ≤ c.y ∧ 25.5 ≤ c.z) ∧
    phong_fragment_shader Real.sqrt (downNormalPayload ℝ) = some ⟨25.5, 25.5, 25.5⟩ := by
  constructor
  · obtain ⟨_, _, _, _, _, _, c, _, _, _, _, _, _, hc, hx, hy, hz, _⟩ :=
      phong_fragment_shader_ambient_floor (untexturedPayload ℝ)
        ⟨by norm_num [untexturedPayload], by norm_num [untexturedPayload],
          by norm_num [untexturedPayload]⟩
        (by simp [untexturedPayload]) (by simp [untexturedPayload])
        (by simp [untexturedPayload]) (by simp [untexturedPayload])
    exact ⟨c, hc, hx, hy, hz⟩
  · obtain ⟨N, V, L1, L2, H1, H2, c, hN, hV, hL1, hL2, hH1, hH2, hc, _, _, _, heq⟩ :=
      phong_fragment_shader_ambient_floor (downNormalPayload ℝ)
        ⟨by norm_num [downNormalPayload], by norm_num [downNormalPayload],
          by norm_num [downNormalPayload]⟩
        (by simp [downNormalPayload]) (by simp [downNormalPayload])
        (by simp [downNormalPayload]) (by simp [downNormalPayload])
    have hNval : N = ⟨0, -1, 0⟩ := by
      have hu := normalized_of_unit (downNormalPayload ℝ).normal
        (by simp [downNormalPayload, Vec3.norm, Vec3.dot])
      rw [hu] at hN
      exact (Option.some.inj hN).symm
    have hVy : 0 ≤ V.y := normalized_y_nonneg _ _ hV (by simp [downNormalPayload, Vec3.sub])
    have hL1y : 0 ≤ L1.y :=
      normalized_y_nonneg _ _ hL1 (by simp [downNormalPayload, Vec3.sub])
    have hL2y : 0 ≤ L2.y :=
      normalized_y_nonneg _ _ hL2 (by simp [downNormalPayload, Vec3.sub])
    have hH1y : 0 ≤ H1.y :=
      normalized_y_nonneg _ _ hH1 (by simp only [Vec3.add]; linarith)
    have hH2y : 0 ≤ H2.y :=
      normalized_y_nonneg _ _ hH2 (by simp only [Vec3.add]; linarith)
    rw [hc, heq] <;> rw [hNval] <;> simp only [Vec3.dot] <;> linarith

end Games101
